import Mathlib

set_option maxRecDepth 40000

/-!
Verification of the threaded prime sieve in PrimeCPP_Threaded.cpp.

The C++ class prime_sieve stores one cell per odd number: cell i of the
vector Bits stands for the number 2 * i + 1.  The constructor allocates
n >> 1 cells, all set to 1, and then forces cell 0 to 0.  The method
runSieve(int64_t index) is the per-worker loop: worker 0 first crosses off
the odd multiples of three, and every worker walks the factor candidates
6 * index - 1 and 6 * index + 1, advancing its index by the thread count,
while the factor is at most (int)sqrt(Size).  The orchestrating runSieve()
spawns Threads such workers and joins them.

Shallow embedding notes.
- The bit store is a List Bool; vector writes become List.set (a write past
  the end is dropped, which models the fact that the C++ code never writes
  past the end on the executions we reason about; the one exception, the
  constructor write Bits[0] when n < 2, is out of bounds in the source and
  is treated as a construction failure by prime_sieve.init?, while the
  total prime_sieve.init describes the in-bounds executions n >= 2).
- All loops are encoded with an explicit fuel argument so that every
  function is structurally recursive and can be evaluated by the kernel.
  Each call site passes fuel that provably exceeds the iteration count, so
  the fuel never runs out on the executions we reason about.
- The workers of runSieve() are executed sequentially, worker 0 first.
  The C++ source runs them concurrently; its own correctness argument is
  that every write is a blind store of 0, so any interleaving yields the
  same final store as the sequential schedule modelled here.
- int64_t and uint64_t arithmetic is modelled on Nat: no value in any
  execution we reason about comes near 2 ^ 63, and the one negative
  intermediate value in the source, factor = 6 * 0 - 1 = -1 for worker 0,
  only ever flows into the comparison factor <= q, which Nat subtraction
  (6 * 0 - 1 = 0) decides identically because q is nonnegative.
- (int)sqrt(Size) is modelled as the integer square root isqrt; for the
  sizes the program accepts the double computation is exact on perfect
  squares and off by at most the final rounding elsewhere, which matches
  the floor square root.
-/

/-- Integer square root by linear search, structurally recursive so that the
kernel can evaluate it.  It models the expression (int)sqrt(Size) of the
source and is proved equal to Nat.sqrt below. -/
def isqrtAux (n : Nat) : Nat → Nat → Nat
  | 0, r => r
  | fuel+1, r => if (r + 1) * (r + 1) ≤ n then isqrtAux n fuel (r + 1) else r

def isqrt (n : Nat) : Nat := isqrtAux n n 0

/-- The inner marking loop of runSieve(int64_t):
for (num = start; num < size; num += step) Bits[num >> 1] = 0. -/
def markLoop (size step : Nat) : Nat → Nat → List Bool → List Bool
  | 0, _, bits => bits
  | fuel+1, num, bits =>
    if num < size then markLoop size step fuel (num + step) (bits.set (num / 2) false)
    else bits

/-- One factor candidate of runSieve(int64_t): if (1 == Bits[factor >> 1])
then cross off factor * factor, factor * factor + 2 * factor, ... below size. -/
def doFactor (size factor : Nat) (bits : List Bool) : List Bool :=
  if bits.getD (factor / 2) false then
    markLoop size (2 * factor) size (factor * factor) bits
  else bits

/-- One iteration of the while loop of runSieve(int64_t).  At index 0 the
worker crosses off 9, 15, 21, ... (the odd multiples of three); at any other
index it handles the factor candidates 6 * index - 1 and 6 * index + 1. -/
def sieveRound (size : Nat) : Nat → List Bool → List Bool
  | 0, bits => markLoop size 6 size 9 bits
  | i+1, bits => doFactor size (6 * (i + 1) + 1) (doFactor size (6 * (i + 1) - 1) bits)

/-- The while loop of runSieve(int64_t): while (factor <= q) run one round
and advance the index by the thread count, where factor = 6 * index - 1 and
q = (int)sqrt(Size). -/
def runLoop (size T : Nat) : Nat → Nat → List Bool → List Bool
  | 0, _, bits => bits
  | fuel+1, i, bits =>
    if 6 * i - 1 ≤ isqrt size then runLoop size T fuel (i + T) (sieveRound size i bits)
    else bits

/-- The body of runSieve(int64_t index) for the worker with the given index. -/
def runSieveIdx (size T i : Nat) (bits : List Bool) : List Bool :=
  runLoop size T (isqrt size + 2) i bits

/-- The orchestrating runSieve(): one worker per index in [w, T), executed
sequentially in index order (see the embedding notes above). -/
def runWorkersFrom (size T : Nat) : Nat → Nat → List Bool → List Bool
  | 0, _, bits => bits
  | fuel+1, w, bits =>
    if w < T then runWorkersFrom size T fuel (w + 1) (runSieveIdx size T w bits)
    else bits

/-- The sieve object: Bits, Size and Threads, as in the C++ class. -/
structure prime_sieve where
  Bits : List Bool
  Size : Nat
  Threads : Nat

/-- The constructor prime_sieve(uint64_t n, uint64_t t): n >> 1 cells all 1,
then Bits[0] = 0.  For n < 2 the vector is empty and the C++ write Bits[0]
is out of bounds (undefined behaviour); this total variant gives the result
of the in-bounds executions (n >= 2) only, and prime_sieve.init? below
makes the bounds precondition of the write explicit. -/
def prime_sieve.init (n t : Nat) : prime_sieve :=
  { Bits := (List.replicate (n / 2) true).set 0 false, Size := n, Threads := t }

/-- The constructor with the precondition of its single write made explicit:
Bits(n >> 1, 1) allocates n >> 1 cells, and the unchecked write Bits[0] = 0
is in bounds only when that store is nonempty.  For n < 2 the store is
empty, the write is out of bounds (undefined behaviour in the source), and
construction yields no sieve: a failure that is not an allocation
failure. -/
def prime_sieve.init? (n t : Nat) : Option prime_sieve :=
  if 0 < (List.replicate (n / 2) true).length then
    some { Bits := (List.replicate (n / 2) true).set 0 false, Size := n, Threads := t }
  else none

/-- runSieve(): spawn workers 0 .. Threads - 1 over the shared store and
join them (modelled by the sequential fold runWorkersFrom). -/
def prime_sieve.runSieve (s : prime_sieve) : prime_sieve :=
  { s with Bits := runWorkersFrom s.Size s.Threads s.Threads 0 s.Bits }

/-- countPrimes(): one for the prime 2 when Size >= 2, plus the number of
true cells at indices 1 .. Bits.size() - 1. -/
def prime_sieve.countPrimes (s : prime_sieve) : Nat :=
  (if 2 ≤ s.Size then 1 else 0) + (s.Bits.drop 1).count true

/-- isPrime(n): for odd n the cell n >> 1, for even n false. -/
def prime_sieve.isPrime (s : prime_sieve) (n : Nat) : Bool :=
  if n % 2 = 1 then s.Bits.getD (n / 2) false else false

/-- The known counts table of validateResults. -/
def resultsDictionary : List (Nat × Nat) :=
  [(10, 4), (100, 25), (1000, 168), (10000, 1229), (100000, 9592),
   (1000000, 78498), (10000000, 664579), (100000000, 5761455),
   (1000000000, 50847534), (10000000000, 455052511)]

/-- validateResults(): false when Size is not a key of the table, otherwise
whether the stored count equals countPrimes(). -/
def prime_sieve.validateResults (s : prime_sieve) : Bool :=
  match resultsDictionary.lookup s.Size with
  | none => false
  | some c => c == s.countPrimes

/-! ### Basic facts about isqrt and list cells -/

/-- Every cell that stands for a prime number below size still holds true. -/
def primesTrue (size : Nat) (bits : List Bool) : Prop :=
  ∀ j, 2 * j + 1 < size → Nat.Prime (2 * j + 1) → bits.getD j false = true

/-- A structurally recursive counter, usable by the kernel: the number of
j below the bound with f j = true. -/
def countHits (f : Nat → Bool) : Nat → Nat
  | 0 => 0
  | k+1 => countHits f k + (if f k then 1 else 0)

/-- The odd primes strictly below n. -/
def oddPrimesBelow (n : Nat) : Finset Nat :=
  (Finset.range n).filter (fun m => Nat.Prime m ∧ m % 2 = 1)

/-- Check the odd divisor candidates d, d + 2, d + 4, ... while their square
is at most n; true when none divides n. -/
def trialDivAux (n : Nat) : Nat → Nat → Bool
  | 0, _ => true
  | fuel+1, d =>
    if d * d ≤ n then (if n % d = 0 then false else trialDivAux n fuel (d + 2))
    else true

/-- Trial division primality: even numbers other than 2 are composite, odd
numbers are checked against the odd divisors up to their square root. -/
def isPrimeTD (n : Nat) : Bool :=
  if n < 2 then false
  else if n % 2 = 0 then n == 2
  else trialDivAux n n 3

/-- The primes strictly below n, as a finite set. -/
def primesBelow (n : Nat) : Finset Nat := (Finset.range n).filter (fun m => Nat.Prime m)

/-- m blocks of the digit 1 in radix 2 ^ B, by exact division. -/
def onesBlocks (B m : Nat) : Nat := ((1 <<< (B * m)) - 1) / ((1 <<< B) - 1)

/-- Recursive form of onesBlocks, for proofs. -/
def onesBlocksR (B : Nat) : Nat → Nat
  | 0 => 0
  | m+1 => 1 + 2 ^ B * onesBlocksR B m

/-- The bits at positions a, a + d, ..., a + d * (m - 1). -/
def progMask (a d : Nat) : Nat → Nat
  | 0 => 0
  | m+1 => progMask a d m + 2 ^ (a + d * m)

/-- The sum of the base 2 ^ B digits of x (for proofs only). -/
def fieldSum (B : Nat) (x : Nat) : Nat :=
  if h : x = 0 ∨ B = 0 then 0 else x % 2 ^ B + fieldSum B (x / 2 ^ B)
termination_by x
decreasing_by
  have hx : x ≠ 0 := fun hh => h (Or.inl hh)
  have hB : B ≠ 0 := fun hh => h (Or.inr hh)
  exact Nat.div_lt_self (by omega) (Nat.one_lt_two_pow hB)

/-- The mask keeping the low b bits of each 2 b wide field, over m fields. -/
def maskL (b m : Nat) : Nat := ((1 <<< b) - 1) * onesBlocks (2 * b) m

/-- Proof form of maskL. -/
def maskLR (b m : Nat) : Nat := (2 ^ b - 1) * onesBlocksR (2 * b) m

/-- A logarithmic fold computing the number of set bits: at each step the
fields double in width and adjacent fields are added. -/
def popRun : Nat → Nat → Nat → Nat
  | 0, _, x => x
  | s+1, b, x =>
    popRun s (2 * b) ((x &&& maskL b (1 <<< s)) + ((x >>> b) &&& maskL b (1 <<< s)))

/-- The number of odd multiples of d in the interval from d * d up to N. -/
def progLen (N d : Nat) : Nat := (N - d * d + (2 * d - 1)) / (2 * d)

/-- The union of the composite masks for the odd divisor candidates
d, d + 2, d + 4, ... while the square of the candidate is below N.  Bit j of
the result stands for the odd number 2 * j + 1. -/
def sieveMaskAux (N : Nat) : Nat → Nat → Nat
  | 0, _ => 0
  | fuel+1, d =>
    if d * d < N then
      (1 <<< (d * d / 2)) * onesBlocks d (progLen N d) ||| sieveMaskAux N fuel (d + 2)
    else 0

theorem isqrtAux_eq (n : Nat) : ∀ (fuel r : Nat), r * r ≤ n → Nat.sqrt n ≤ r + fuel →
    isqrtAux n fuel r = Nat.sqrt n := by
  intro fuel
  induction fuel with
  | zero =>
    intro r h1 h2
    have h3 : r ≤ Nat.sqrt n := Nat.le_sqrt.mpr h1
    simp only [isqrtAux]
    omega
  | succ fuel ih =>
    intro r h1 h2
    simp only [isqrtAux]
    split
    · exact ih (r + 1) (by assumption) (by omega)
    · next h =>
      exact Nat.eq_sqrt.mpr ⟨h1, by omega⟩

theorem isqrt_eq (n : Nat) : isqrt n = Nat.sqrt n :=
  isqrtAux_eq n n 0 (by simp) (by simpa using Nat.sqrt_le_self n)

theorem getD_set (b : List Bool) (i j : Nat) (v : Bool) :
    (b.set i v).getD j false =
      if i = j ∧ i < b.length then v else b.getD j false := by
  split
  · next h =>
    rcases h with ⟨h1, h2⟩
    subst h1
    rw [List.getD_eq_getElem?_getD, List.getElem?_set_self h2]
    rfl
  · next h =>
    by_cases hij : i = j
    · subst hij
      have hlen : b.length ≤ i := by omega
      rw [List.set_eq_of_length_le hlen]
    · rw [List.getD_eq_getElem?_getD, List.getElem?_set_ne hij, ← List.getD_eq_getElem?_getD]

theorem getD_false_of_length_le (b : List Bool) (j : Nat) (h : b.length ≤ j) :
    b.getD j false = false := by
  rw [List.getD_eq_getElem?_getD, List.getElem?_eq_none (by omega)]
  rfl

/-! ### The marking loop: length preservation, monotonicity, and its effect -/

theorem markLoop_length (size step : Nat) : ∀ (fuel num : Nat) (bits : List Bool),
    (markLoop size step fuel num bits).length = bits.length := by
  intro fuel
  induction fuel with
  | zero => intro num bits; rfl
  | succ fuel ih =>
    intro num bits
    simp only [markLoop]
    split
    · rw [ih, List.length_set]
    · rfl

theorem markLoop_mono (size step : Nat) : ∀ (fuel num : Nat) (bits : List Bool) (j : Nat),
    (markLoop size step fuel num bits).getD j false = true → bits.getD j false = true := by
  intro fuel
  induction fuel with
  | zero => intro num bits j h; exact h
  | succ fuel ih =>
    intro num bits j h
    simp only [markLoop] at h
    split at h
    · have h2 := ih (num + step) (bits.set (num / 2) false) j h
      rw [getD_set] at h2
      split at h2
      · exact absurd h2 (by simp)
      · exact h2
    · exact h

theorem markLoop_false (size step fuel num : Nat) (bits : List Bool) (j : Nat)
    (h : bits.getD j false = false) :
    (markLoop size step fuel num bits).getD j false = false := by
  cases h2 : (markLoop size step fuel num bits).getD j false
  · rfl
  · have h3 := markLoop_mono size step fuel num bits j h2
    rw [h3] at h
    exact h

theorem markLoop_hit (size step : Nat) (hs : 0 < step) :
    ∀ (fuel num k : Nat) (bits : List Bool),
    size ≤ num + fuel → num + step * k < size → (num + step * k) / 2 < bits.length →
    (markLoop size step fuel num bits).getD ((num + step * k) / 2) false = false := by
  intro fuel
  induction fuel with
  | zero => intro num k bits hfuel hk _; omega
  | succ fuel ih =>
    intro num k bits hfuel hk hlen
    have hnum : num < size := by nlinarith [Nat.zero_le (step * k)]
    simp only [markLoop, if_pos hnum]
    cases k with
    | zero =>
      apply markLoop_false
      simp only [Nat.mul_zero, Nat.add_zero] at hk hlen ⊢
      rw [getD_set]
      simp [hlen]
    | succ k =>
      have he : num + step + step * k = num + step * (k + 1) := by ring
      have := ih (num + step) k (bits.set (num / 2) false) (by omega) (by rw [he]; exact hk)
        (by rw [List.length_set, he]; exact hlen)
      rw [he] at this
      exact this

theorem markLoop_eq_or_exists (size step : Nat) : ∀ (fuel num : Nat) (bits : List Bool) (j : Nat),
    (markLoop size step fuel num bits).getD j false = bits.getD j false ∨
      ∃ k, num + step * k < size ∧ (num + step * k) / 2 = j := by
  intro fuel
  induction fuel with
  | zero => intro num bits j; exact Or.inl rfl
  | succ fuel ih =>
    intro num bits j
    simp only [markLoop]
    split
    · next hnum =>
      by_cases hj : num / 2 = j
      · exact Or.inr ⟨0, by simpa using hnum, by simpa using hj⟩
      · rcases ih (num + step) (bits.set (num / 2) false) j with h | ⟨k, hk1, hk2⟩
        · left
          rw [h, getD_set, if_neg (by tauto)]
        · refine Or.inr ⟨k + 1, ?_, ?_⟩
          · rw [show num + step * (k + 1) = num + step + step * k from by ring]; exact hk1
          · rw [show num + step * (k + 1) = num + step + step * k from by ring]; exact hk2
    · exact Or.inl rfl

/-! ### Lifting length preservation and monotonicity through the loops -/

theorem doFactor_length (size f : Nat) (bits : List Bool) :
    (doFactor size f bits).length = bits.length := by
  unfold doFactor
  split
  · exact markLoop_length _ _ _ _ _
  · rfl

theorem doFactor_mono (size f : Nat) (bits : List Bool) (j : Nat)
    (h : (doFactor size f bits).getD j false = true) : bits.getD j false = true := by
  unfold doFactor at h
  split at h
  · exact markLoop_mono _ _ _ _ _ _ h
  · exact h

theorem sieveRound_length (size i : Nat) (bits : List Bool) :
    (sieveRound size i bits).length = bits.length := by
  cases i with
  | zero => exact markLoop_length _ _ _ _ _
  | succ i => simp only [sieveRound]; rw [doFactor_length, doFactor_length]

theorem sieveRound_mono (size i : Nat) (bits : List Bool) (j : Nat)
    (h : (sieveRound size i bits).getD j false = true) : bits.getD j false = true := by
  cases i with
  | zero => exact markLoop_mono _ _ _ _ _ _ h
  | succ i => exact doFactor_mono _ _ _ _ (doFactor_mono _ _ _ _ h)

theorem runLoop_length (size T : Nat) : ∀ (fuel i : Nat) (bits : List Bool),
    (runLoop size T fuel i bits).length = bits.length := by
  intro fuel
  induction fuel with
  | zero => intro i bits; rfl
  | succ fuel ih =>
    intro i bits
    simp only [runLoop]
    split
    · rw [ih, sieveRound_length]
    · rfl

theorem runLoop_mono (size T : Nat) : ∀ (fuel i : Nat) (bits : List Bool) (j : Nat),
    (runLoop size T fuel i bits).getD j false = true → bits.getD j false = true := by
  intro fuel
  induction fuel with
  | zero => intro i bits j h; exact h
  | succ fuel ih =>
    intro i bits j h
    simp only [runLoop] at h
    split at h
    · exact sieveRound_mono _ _ _ _ (ih _ _ _ h)
    · exact h

theorem runLoop_false (size T fuel i : Nat) (bits : List Bool) (j : Nat)
    (h : bits.getD j false = false) :
    (runLoop size T fuel i bits).getD j false = false := by
  cases h2 : (runLoop size T fuel i bits).getD j false
  · rfl
  · have h3 := runLoop_mono size T fuel i bits j h2
    rw [h3] at h
    exact h

theorem runWorkersFrom_length (size T : Nat) : ∀ (fuel w : Nat) (bits : List Bool),
    (runWorkersFrom size T fuel w bits).length = bits.length := by
  intro fuel
  induction fuel with
  | zero => intro w bits; rfl
  | succ fuel ih =>
    intro w bits
    simp only [runWorkersFrom]
    split
    · rw [ih]; exact runLoop_length _ _ _ _ _
    · rfl

theorem runWorkersFrom_mono (size T : Nat) : ∀ (fuel w : Nat) (bits : List Bool) (j : Nat),
    (runWorkersFrom size T fuel w bits).getD j false = true → bits.getD j false = true := by
  intro fuel
  induction fuel with
  | zero => intro w bits j h; exact h
  | succ fuel ih =>
    intro w bits j h
    simp only [runWorkersFrom] at h
    split at h
    · exact runLoop_mono _ _ _ _ _ _ (ih _ _ _ h)
    · exact h

theorem runWorkersFrom_false (size T fuel w : Nat) (bits : List Bool) (j : Nat)
    (h : bits.getD j false = false) :
    (runWorkersFrom size T fuel w bits).getD j false = false := by
  cases h2 : (runWorkersFrom size T fuel w bits).getD j false
  · rfl
  · have h3 := runWorkersFrom_mono size T fuel w bits j h2
    rw [h3] at h
    exact h

/-! ### The key invariant: cells of prime numbers are never cleared -/

theorem markLoop_primesTrue (size step fuel num : Nat) (bits : List Bool)
    (hodd : num % 2 = 1) (hstep : step % 2 = 0)
    (hcomp : ∀ k, num + step * k < size → ¬ Nat.Prime (num + step * k))
    (h : primesTrue size bits) : primesTrue size (markLoop size step fuel num bits) := by
  intro j hj hp
  rcases markLoop_eq_or_exists size step fuel num bits j with he | ⟨k, hk1, hk2⟩
  · rw [he]; exact h j hj hp
  · exfalso
    obtain ⟨m, hm⟩ : ∃ m, step = 2 * m := ⟨step / 2, by omega⟩
    have hoddk : (num + step * k) % 2 = 1 := by
      have : step * k = 2 * (m * k) := by rw [hm]; ring
      omega
    have : 2 * j + 1 = num + step * k := by omega
    rw [this] at hp
    exact hcomp k hk1 hp

theorem doFactor_primesTrue (size f : Nat) (bits : List Bool)
    (hodd : f % 2 = 1) (hf : 2 ≤ f)
    (h : primesTrue size bits) : primesTrue size (doFactor size f bits) := by
  unfold doFactor
  split
  · apply markLoop_primesTrue size (2 * f) size (f * f) bits _ (by omega) _ h
    · rw [Nat.mul_mod, hodd]
    · intro k hk
      rw [show f * f + 2 * f * k = f * (f + 2 * k) from by ring]
      exact Nat.not_prime_mul (by omega) (by omega)
  · exact h

theorem sieveRound_primesTrue (size i : Nat) (bits : List Bool)
    (h : primesTrue size bits) : primesTrue size (sieveRound size i bits) := by
  cases i with
  | zero =>
    apply markLoop_primesTrue size 6 size 9 bits (by omega) (by omega) _ h
    intro k hk
    rw [show 9 + 6 * k = 3 * (3 + 2 * k) from by ring]
    exact Nat.not_prime_mul (by omega) (by omega)
  | succ i =>
    exact doFactor_primesTrue _ _ _ (by omega) (by omega)
      (doFactor_primesTrue _ _ _ (by omega) (by omega) h)

theorem runLoop_primesTrue (size T : Nat) : ∀ (fuel i : Nat) (bits : List Bool),
    primesTrue size bits → primesTrue size (runLoop size T fuel i bits) := by
  intro fuel
  induction fuel with
  | zero => intro i bits h; exact h
  | succ fuel ih =>
    intro i bits h
    simp only [runLoop]
    split
    · exact ih _ _ (sieveRound_primesTrue _ _ _ h)
    · exact h

theorem runWorkersFrom_primesTrue (size T : Nat) : ∀ (fuel w : Nat) (bits : List Bool),
    primesTrue size bits → primesTrue size (runWorkersFrom size T fuel w bits) := by
  intro fuel
  induction fuel with
  | zero => intro w bits h; exact h
  | succ fuel ih =>
    intro w bits h
    simp only [runWorkersFrom]
    split
    · exact ih _ _ (runLoop_primesTrue _ _ _ _ _ h)
    · exact h

/-! ### Completeness: every odd composite below size gets crossed off -/

theorem doFactor_false (size f : Nat) (bits : List Bool) (j : Nat)
    (h : bits.getD j false = false) : (doFactor size f bits).getD j false = false := by
  cases h2 : (doFactor size f bits).getD j false
  · rfl
  · have h3 := doFactor_mono size f bits j h2
    rw [h3] at h
    exact h

theorem doFactor_marks (size f : Nat) (bits : List Bool) (c : Nat)
    (hf : 2 ≤ f) (hfodd : f % 2 = 1) (hp : Nat.Prime f) (hdvd : f ∣ c) (hsq : f * f ≤ c)
    (hc : c < size) (hcodd : c % 2 = 1) (hlen : bits.length = size / 2)
    (hinv : primesTrue size bits) :
    (doFactor size f bits).getD (c / 2) false = false := by
  have hff : f ≤ f * f := by nlinarith
  have hflt : f < size := by omega
  have hfs : 2 * (f / 2) + 1 = f := by omega
  have hread : bits.getD (f / 2) false = true := by
    apply hinv (f / 2) (by omega)
    rw [hfs]
    exact hp
  obtain ⟨e, he⟩ := hdvd
  have hef : f ≤ e := by
    have : 0 < f := by omega
    nlinarith
  have heodd : e % 2 = 1 := by
    have hmod : c % 2 = f % 2 * (e % 2) % 2 := by rw [he, Nat.mul_mod]
    rw [hfodd, Nat.one_mul] at hmod
    omega
  have hck : c = f * f + 2 * f * ((e - f) / 2) := by
    have h2 : 2 * ((e - f) / 2) = e - f := by omega
    calc c = f * e := he
    _ = f * f + f * (e - f) := by rw [← Nat.mul_add]; congr 1; omega
    _ = f * f + 2 * f * ((e - f) / 2) := by rw [show 2 * f * ((e - f) / 2) = f * (2 * ((e - f) / 2)) from by ring, h2]
  unfold doFactor
  rw [if_pos hread]
  have := markLoop_hit size (2 * f) (by omega) size (f * f) ((e - f) / 2) bits
    (by omega) (by rw [← hck]; exact hc) (by rw [← hck, hlen]; omega)
  rw [← hck] at this
  exact this

theorem runLoop_marks (size T : Nat) (hT : 0 < T) (c : Nat)
    (hc : c < size) (hcodd : c % 2 = 1) :
    ∀ (a fuel i : Nat) (bits : List Bool),
    Nat.sqrt size + 2 ≤ fuel + i →
    bits.length = size / 2 → primesTrue size bits →
    1 ≤ i + a * T →
    ((Nat.Prime (6 * (i + a * T) - 1) ∧ (6 * (i + a * T) - 1) ∣ c ∧
       (6 * (i + a * T) - 1) * (6 * (i + a * T) - 1) ≤ c) ∨
     (Nat.Prime (6 * (i + a * T) + 1) ∧ (6 * (i + a * T) + 1) ∣ c ∧
       (6 * (i + a * T) + 1) * (6 * (i + a * T) + 1) ≤ c)) →
    (runLoop size T fuel i bits).getD (c / 2) false = false := by
  intro a
  induction a with
  | zero =>
    intro fuel i bits hfuel hlen hinv hm hdisj
    simp only [Nat.zero_mul, Nat.add_zero] at hm hdisj
    obtain ⟨i', rfl⟩ : ∃ i', i = i' + 1 := ⟨i - 1, by omega⟩
    have hle : 6 * (i' + 1) - 1 ≤ Nat.sqrt size := by
      rcases hdisj with ⟨_, _, hsq⟩ | ⟨_, _, hsq⟩
      · exact Nat.le_sqrt.mpr (by omega)
      · have := Nat.le_sqrt.mpr
          (show (6 * (i' + 1) + 1) * (6 * (i' + 1) + 1) ≤ size from by omega)
        omega
    have hi : i' + 1 ≤ Nat.sqrt size := by
      have : i' + 1 ≤ 6 * (i' + 1) - 1 := by omega
      omega
    obtain ⟨fuel', rfl⟩ : ∃ fuel', fuel = fuel' + 1 := ⟨fuel - 1, by omega⟩
    simp only [runLoop]
    rw [if_pos (by rw [isqrt_eq]; exact hle)]
    apply runLoop_false
    simp only [sieveRound]
    rcases hdisj with ⟨hp, hdvd, hsq⟩ | ⟨hp, hdvd, hsq⟩
    · apply doFactor_false
      exact doFactor_marks size _ bits c (by omega) (by omega) hp hdvd hsq hc hcodd hlen hinv
    · have h1 : (doFactor size (6 * (i' + 1) - 1) bits).length = size / 2 := by
        rw [doFactor_length]; exact hlen
      have h2 : primesTrue size (doFactor size (6 * (i' + 1) - 1) bits) :=
        doFactor_primesTrue _ _ _ (by omega) (by omega) hinv
      exact doFactor_marks size _ _ c (by omega) (by omega) hp hdvd hsq hc hcodd h1 h2
  | succ a ih =>
    intro fuel i bits hfuel hlen hinv hm hdisj
    have hmm : i + (a + 1) * T = (i + T) + a * T := by ring
    rw [hmm] at hm hdisj
    have hle : 6 * ((i + T) + a * T) - 1 ≤ Nat.sqrt size := by
      rcases hdisj with ⟨_, _, hsq⟩ | ⟨_, _, hsq⟩
      · exact Nat.le_sqrt.mpr (by omega)
      · have := Nat.le_sqrt.mpr
          (show (6 * ((i + T) + a * T) + 1) * (6 * ((i + T) + a * T) + 1) ≤ size from by omega)
        omega
    have hisq : i ≤ Nat.sqrt size := by
      have h1 : i ≤ (i + T) + a * T := by omega
      have h2 : (i + T) + a * T ≤ 6 * ((i + T) + a * T) - 1 := by omega
      omega
    obtain ⟨fuel', rfl⟩ : ∃ fuel', fuel = fuel' + 1 := ⟨fuel - 1, by omega⟩
    simp only [runLoop]
    split
    · exact ih fuel' (i + T) (sieveRound size i bits)
        (by omega) (by rw [sieveRound_length]; exact hlen)
        (sieveRound_primesTrue _ _ _ hinv) hm hdisj
    · next hcond =>
      exfalso
      apply hcond
      rw [isqrt_eq]
      omega

theorem runLoop_marks3 (size T : Nat) (c : Nat) (hc : c < size) (hmod : c % 6 = 3) (h9 : 9 ≤ c) :
    ∀ (fuel : Nat) (bits : List Bool), 0 < fuel → bits.length = size / 2 →
    (runLoop size T fuel 0 bits).getD (c / 2) false = false := by
  intro fuel bits hfuel hlen
  obtain ⟨fuel', rfl⟩ : ∃ fuel', fuel = fuel' + 1 := ⟨fuel - 1, by omega⟩
  simp only [runLoop]
  rw [if_pos (by omega)]
  apply runLoop_false
  simp only [sieveRound]
  have := markLoop_hit size 6 (by omega) size 9 ((c - 9) / 6) bits
    (by omega) (by omega) (by rw [hlen]; omega)
  rw [show 9 + 6 * ((c - 9) / 6) = c from by omega] at this
  exact this

theorem runSieveIdx_length (size T i : Nat) (bits : List Bool) :
    (runSieveIdx size T i bits).length = bits.length :=
  runLoop_length size T _ i bits

theorem runSieveIdx_primesTrue (size T i : Nat) (bits : List Bool)
    (h : primesTrue size bits) : primesTrue size (runSieveIdx size T i bits) :=
  runLoop_primesTrue size T _ i bits h

/-! ### Facts about the freshly constructed store -/

theorem init_length (n t : Nat) : (prime_sieve.init n t).Bits.length = n / 2 := by
  simp [prime_sieve.init]

theorem replicate_getD (m j : Nat) :
    (List.replicate m true).getD j false = if j < m then true else false := by
  rw [List.getD_eq_getElem?_getD, List.getElem?_replicate]
  split
  · rfl
  · rfl

theorem init_getD (n t j : Nat) :
    (prime_sieve.init n t).Bits.getD j false =
      if 1 ≤ j ∧ j < n / 2 then true else false := by
  simp only [prime_sieve.init]
  rw [getD_set, replicate_getD, List.length_replicate]
  by_cases h0 : j = 0
  · subst h0
    by_cases hlt : 0 < n / 2
    · rw [if_pos ⟨rfl, hlt⟩, if_neg (by omega)]
    · rw [if_neg (by omega), if_neg (by omega), if_neg (by omega)]
  · rw [if_neg (by omega)]
    by_cases hlt : j < n / 2
    · rw [if_pos hlt, if_pos ⟨by omega, hlt⟩]
    · rw [if_neg hlt, if_neg (by omega)]

theorem init_primesTrue (n t : Nat) : primesTrue n (prime_sieve.init n t).Bits := by
  intro j hj hp
  rcases Nat.eq_zero_or_pos j with h0 | h1
  · subst h0
    exact absurd hp Nat.not_prime_one
  · rw [init_getD, if_pos ⟨h1, by omega⟩]

/-! ### Worker coverage: the fold over workers crosses off every composite -/

theorem runWorkersFrom_marks (size T : Nat) (hT : 0 < T) (c : Nat)
    (hc : c < size) (hcodd : c % 2 = 1) (w' a : Nat) (hw' : w' < T)
    (hm : 1 ≤ w' + a * T)
    (hdisj :
      (Nat.Prime (6 * (w' + a * T) - 1) ∧ (6 * (w' + a * T) - 1) ∣ c ∧
        (6 * (w' + a * T) - 1) * (6 * (w' + a * T) - 1) ≤ c) ∨
      (Nat.Prime (6 * (w' + a * T) + 1) ∧ (6 * (w' + a * T) + 1) ∣ c ∧
        (6 * (w' + a * T) + 1) * (6 * (w' + a * T) + 1) ≤ c)) :
    ∀ (fuel w : Nat) (bits : List Bool), w ≤ w' → w' < w + fuel →
    bits.length = size / 2 → primesTrue size bits →
    (runWorkersFrom size T fuel w bits).getD (c / 2) false = false := by
  intro fuel
  induction fuel with
  | zero => intro w bits h1 h2 _ _; omega
  | succ fuel ih =>
    intro w bits h1 h2 hlen hinv
    simp only [runWorkersFrom]
    rw [if_pos (by omega)]
    by_cases hww : w = w'
    · subst hww
      apply runWorkersFrom_false
      unfold runSieveIdx
      exact runLoop_marks size T hT c hc hcodd a (isqrt size + 2) w bits
        (by rw [isqrt_eq]; omega) hlen hinv hm hdisj
    · exact ih (w + 1) _ (by omega) (by omega)
        (by rw [runSieveIdx_length]; exact hlen)
        (runSieveIdx_primesTrue _ _ _ _ hinv)

theorem runSieve_marks_composite (n t : Nat) (ht : 0 < t) (c : Nat)
    (hc : c < n) (hcodd : c % 2 = 1) (h3 : 3 ≤ c) (hcomp : ¬ Nat.Prime c) :
    (prime_sieve.init n t).runSieve.Bits.getD (c / 2) false = false := by
  have hlen : (prime_sieve.init n t).Bits.length = n / 2 := init_length n t
  have hinv := init_primesTrue n t
  show (runWorkersFrom n t t 0 (prime_sieve.init n t).Bits).getD (c / 2) false = false
  by_cases h3d : c % 3 = 0
  · have hne3 : c ≠ 3 := fun hh => hcomp (hh ▸ Nat.prime_three)
    have h9 : 9 ≤ c := by omega
    have hmod6 : c % 6 = 3 := by omega
    obtain ⟨t', rfl⟩ : ∃ t', t = t' + 1 := ⟨t - 1, by omega⟩
    simp only [runWorkersFrom]
    rw [if_pos (by omega)]
    apply runWorkersFrom_false
    unfold runSieveIdx
    exact runLoop_marks3 n (t' + 1) c hc hmod6 h9 _ _ (by omega) hlen
  · have hp : Nat.Prime c.minFac := Nat.minFac_prime (by omega)
    have hdvd : c.minFac ∣ c := Nat.minFac_dvd c
    have hsq : c.minFac * c.minFac ≤ c := by
      have h2 := Nat.minFac_sq_le_self (by omega) hcomp
      rw [pow_two] at h2
      exact h2
    have hp2 : c.minFac ≠ 2 := by
      intro h2
      rw [h2] at hdvd
      omega
    have hp3 : c.minFac ≠ 3 := by
      intro h2
      rw [h2] at hdvd
      omega
    have hpodd : c.minFac % 2 = 1 := by
      by_contra h
      have heven : Even c.minFac := ⟨c.minFac / 2, by omega⟩
      exact hp2 (hp.even_iff.mp heven)
    have hpm3 : c.minFac % 3 ≠ 0 := by
      intro h
      have h3dvd : (3 : Nat) ∣ c.minFac := by omega
      rcases hp.eq_one_or_self_of_dvd 3 h3dvd with h2 | h2
      · omega
      · exact hp3 h2.symm
    have hp5 : 5 ≤ c.minFac := by
      have := hp.two_le
      omega
    have hmod6 : c.minFac % 6 = 1 ∨ c.minFac % 6 = 5 := by omega
    rcases hmod6 with h6 | h6
    · obtain ⟨k, hk⟩ : ∃ k, c.minFac = 6 * k + 1 := ⟨c.minFac / 6, by omega⟩
      have hk1 : 1 ≤ k := by omega
      have hwa : k % t + k / t * t = k := Nat.mod_add_div' k t
      apply runWorkersFrom_marks n t ht c hc hcodd (k % t) (k / t) (Nat.mod_lt _ ht)
        (by rw [hwa]; omega) _ t 0 _ (by omega)
        (by have := Nat.mod_lt k ht; omega) hlen hinv
      refine Or.inr ⟨?_, ?_, ?_⟩
      · rw [hwa, ← hk]; exact hp
      · rw [hwa, ← hk]; exact hdvd
      · rw [hwa, ← hk]; exact hsq
    · obtain ⟨k, hk⟩ : ∃ k, c.minFac = 6 * (k + 1) - 1 := ⟨c.minFac / 6, by omega⟩
      have hwa : (k + 1) % t + (k + 1) / t * t = k + 1 := Nat.mod_add_div' (k + 1) t
      apply runWorkersFrom_marks n t ht c hc hcodd ((k + 1) % t) ((k + 1) / t)
        (Nat.mod_lt _ ht) (by rw [hwa]; omega) _ t 0 _ (by omega)
        (by have := Nat.mod_lt (k + 1) ht; omega) hlen hinv
      refine Or.inl ⟨?_, ?_, ?_⟩
      · rw [hwa, ← hk]; exact hp
      · rw [hwa, ← hk]; exact hdvd
      · rw [hwa, ← hk]; exact hsq

/-! ### The main characterization of the store after the run -/

theorem post_run_getD (n t : Nat) (ht : 0 < t) (j : Nat) (hj : 2 * j + 1 < n) :
    (prime_sieve.init n t).runSieve.Bits.getD j false = true ↔ Nat.Prime (2 * j + 1) := by
  constructor
  · intro h
    by_contra hcomp
    rcases Nat.eq_zero_or_pos j with h0 | h1
    · subst h0
      have hz : (prime_sieve.init n t).Bits.getD 0 false = false := by
        rw [init_getD]
        simp
      have : (prime_sieve.init n t).runSieve.Bits.getD 0 false = false := by
        show (runWorkersFrom n t t 0 (prime_sieve.init n t).Bits).getD 0 false = false
        exact runWorkersFrom_false _ _ _ _ _ _ hz
      rw [this] at h
      cases h
    · have hmark := runSieve_marks_composite n t ht (2 * j + 1) hj (by omega) (by omega) hcomp
      rw [show (2 * j + 1) / 2 = j from by omega] at hmark
      rw [hmark] at h
      cases h
  · intro hp
    have := runWorkersFrom_primesTrue n t t 0 (prime_sieve.init n t).Bits (init_primesTrue n t)
    exact this j hj hp

theorem runSieve_length (n t : Nat) :
    (prime_sieve.init n t).runSieve.Bits.length = n / 2 := by
  show (runWorkersFrom n t t 0 (prime_sieve.init n t).Bits).length = n / 2
  rw [runWorkersFrom_length]
  exact init_length n t

/-! ### Counting the true cells -/

theorem countHits_eq_card (f : Nat → Bool) :
    ∀ n : Nat, countHits f n = ((Finset.range n).filter (fun j => f j = true)).card := by
  intro n
  induction n with
  | zero => rfl
  | succ n ih =>
    rw [countHits, ih, Finset.range_succ, Finset.filter_insert]
    split
    · rw [Finset.card_insert_of_not_mem (by simp)]
    · next h => simp [h]

theorem count_true_eq : ∀ b : List Bool,
    b.count true = (List.range b.length).countP (fun j => b.getD j false) := by
  intro b
  induction b with
  | nil => rfl
  | cons x xs ih =>
    rw [List.count_cons, List.length_cons, List.range_succ_eq_map, List.countP_cons,
      List.countP_map]
    simp only [Function.comp_def, List.getD_cons_succ, List.getD_cons_zero]
    rw [← ih]
    cases x <;> simp

theorem countP_range_eq_countHits (f : Nat → Bool) :
    ∀ n : Nat, (List.range n).countP f = countHits f n := by
  intro n
  induction n with
  | zero => rfl
  | succ n ih =>
    rw [List.range_succ, List.countP_append, ih, countHits]
    simp [List.countP_cons]

theorem countHits_congr (f g : Nat → Bool) :
    ∀ n : Nat, (∀ j, j < n → f j = g j) → countHits f n = countHits g n := by
  intro n
  induction n with
  | zero => intro _; rfl
  | succ n ih =>
    intro h
    rw [countHits, countHits, ih (fun j hj => h j (by omega)), h n (by omega)]

theorem drop_one_getD (b : List Bool) (j : Nat) :
    (b.drop 1).getD j false = b.getD (j + 1) false := by
  cases b with
  | nil => rfl
  | cons x xs => rw [List.drop_one, List.tail_cons, List.getD_cons_succ]

theorem card_oddPrimesBelow (n : Nat) :
    ((Finset.range (n / 2 - 1)).filter (fun j => Nat.Prime (2 * j + 3))).card =
      (oddPrimesBelow n).card := by
  apply Finset.card_nbij (fun j => 2 * j + 3)
  · intro j hj
    simp only [Finset.mem_filter, Finset.mem_range] at hj
    simp only [oddPrimesBelow, Finset.mem_filter, Finset.mem_range]
    exact ⟨by omega, hj.2, by omega⟩
  · intro a _ b _ hab
    simp only at hab
    omega
  · intro m hm
    simp only [Finset.coe_filter, Set.mem_setOf_eq, Finset.mem_range, oddPrimesBelow,
      Finset.mem_coe, Finset.mem_filter] at hm
    obtain ⟨hmn, hmp, hmodd⟩ := hm
    have hm3 : 3 ≤ m := by
      have h2 := hmp.two_le
      omega
    refine ⟨(m - 3) / 2, ?_, by show 2 * ((m - 3) / 2) + 3 = m; omega⟩
    simp only [Finset.coe_filter, Set.mem_setOf_eq, Finset.mem_range]
    constructor
    · omega
    · rw [show 2 * ((m - 3) / 2) + 3 = m from by omega]
      exact hmp

theorem countPrimes_run (n t : Nat) (ht : 0 < t) :
    ((prime_sieve.init n t).runSieve).countPrimes =
      (if 2 ≤ n then 1 else 0) + (oddPrimesBelow n).card := by
  have hlen : (prime_sieve.init n t).runSieve.Bits.length = n / 2 := runSieve_length n t
  show (if 2 ≤ n then 1 else 0) + ((prime_sieve.init n t).runSieve.Bits.drop 1).count true = _
  congr 1
  set B := (prime_sieve.init n t).runSieve.Bits with hB
  rcases Nat.lt_or_ge n 2 with hn | hn
  · have hz : B.length = 0 := by rw [hlen]; omega
    rw [List.length_eq_zero.mp hz]
    have : oddPrimesBelow n = ∅ := by
      apply Finset.eq_empty_of_forall_not_mem
      intro m hm
      simp only [oddPrimesBelow, Finset.mem_filter, Finset.mem_range] at hm
      have := hm.2.1.two_le
      omega
    rw [this]
    rfl
  · rw [count_true_eq, countP_range_eq_countHits, List.length_drop, hlen]
    rw [countHits_congr (fun j => (B.drop 1).getD j false)
      (fun j => decide (Nat.Prime (2 * j + 3))) (n / 2 - 1) ?_]
    · rw [countHits_eq_card]
      simp only [decide_eq_true_eq]
      exact card_oddPrimesBelow n
    · intro j hj
      show (B.drop 1).getD j false = decide (Nat.Prime (2 * j + 3))
      rw [drop_one_getD]
      have hjn : 2 * (j + 1) + 1 < n := by omega
      have hiff := post_run_getD n t ht (j + 1) hjn
      rw [show 2 * (j + 1) + 1 = 2 * j + 3 from by omega] at hiff
      cases hpj : B.getD (j + 1) false with
      | false =>
        rw [hB] at hpj
        rw [hpj] at hiff
        have hnp : ¬ Nat.Prime (2 * j + 3) := fun hp => by cases hiff.mpr hp
        exact (decide_eq_false hnp).symm
      | true =>
        rw [hB] at hpj
        rw [hpj] at hiff
        exact (decide_eq_true (hiff.mp rfl)).symm

/-! ### Trial division primality, used to evaluate prime counts -/

theorem trialDivAux_true_of (n : Nat) :
    ∀ (fuel d : Nat), (∀ e, d ≤ e → e * e ≤ n → ¬ e ∣ n) → trialDivAux n fuel d = true := by
  intro fuel
  induction fuel with
  | zero => intro d _; rfl
  | succ fuel ih =>
    intro d h
    simp only [trialDivAux]
    split
    · next hd =>
      have h1 : ¬ n % d = 0 := fun hmod => h d le_rfl hd (Nat.dvd_of_mod_eq_zero hmod)
      rw [if_neg h1]
      exact ih (d + 2) (fun e he h2 => h e (by omega) h2)
    · rfl

theorem trialDivAux_no_divisor (n : Nat) :
    ∀ (fuel d : Nat), d % 2 = 1 → Nat.sqrt n < d + 2 * fuel →
    trialDivAux n fuel d = true →
    ∀ e, d ≤ e → e % 2 = 1 → e * e ≤ n → ¬ e ∣ n := by
  intro fuel
  induction fuel with
  | zero =>
    intro d _ hsq _ e hde _ hesq hdvd
    have := Nat.le_sqrt.mpr hesq
    omega
  | succ fuel ih =>
    intro d hd hsq htd e hde heodd hesq hdvd
    simp only [trialDivAux] at htd
    by_cases hdd : d * d ≤ n
    · rw [if_pos hdd] at htd
      by_cases hmod : n % d = 0
      · rw [if_pos hmod] at htd; cases htd
      · rw [if_neg hmod] at htd
        rcases Nat.eq_or_lt_of_le hde with heq | hlt
        · subst heq
          obtain ⟨q, hq⟩ := hdvd
          subst hq
          exact hmod (Nat.mul_mod_right d q)
        · exact ih (d + 2) (by omega) (by omega) htd e (by omega) heodd hesq hdvd
    · have : d * d ≤ e * e := Nat.mul_le_mul hde hde
      omega

theorem isPrimeTD_iff (n : Nat) : isPrimeTD n = true ↔ Nat.Prime n := by
  unfold isPrimeTD
  split
  · next h =>
    simp only [Bool.false_eq_true, false_iff]
    intro hp
    exact absurd hp.two_le (by omega)
  · next h =>
    split
    · next heven =>
      constructor
      · intro h2
        have : n = 2 := by simpa using h2
        rw [this]
        exact Nat.prime_two
      · intro hp
        have : n = 2 := hp.even_iff.mp ⟨n / 2, by omega⟩
        simp [this]
    · next hodd =>
      have hnodd : n % 2 = 1 := by omega
      constructor
      · intro htd
        by_contra hnp
        have hp := Nat.minFac_prime (show n ≠ 1 from by omega)
        have hdvd := Nat.minFac_dvd n
        have hsq : n.minFac * n.minFac ≤ n := by
          have h2 := Nat.minFac_sq_le_self (by omega) hnp
          rw [pow_two] at h2
          exact h2
        have hpodd : n.minFac % 2 = 1 := by
          by_contra h2
          have heven2 : Even n.minFac := ⟨n.minFac / 2, by omega⟩
          have h3 := hp.even_iff.mp heven2
          rw [h3] at hdvd
          omega
        have h3 : 3 ≤ n.minFac := by
          have := hp.two_le
          omega
        exact trialDivAux_no_divisor n n 3 (by omega)
          (by have := Nat.sqrt_le_self n; omega) htd n.minFac h3 hpodd hsq hdvd
      · intro hp
        apply trialDivAux_true_of
        intro e he hesq hdvd
        rcases hp.eq_one_or_self_of_dvd e hdvd with h2 | h2
        · omega
        · subst h2
          nlinarith [hp.two_le]

/-! ### Prime counting below a bound -/

theorem card_primesBelow (n : Nat) (hn : 3 ≤ n) :
    (primesBelow n).card = 1 + (oddPrimesBelow n).card := by
  have hins : primesBelow n = insert 2 (oddPrimesBelow n) := by
    ext m
    simp only [primesBelow, oddPrimesBelow, Finset.mem_insert, Finset.mem_filter,
      Finset.mem_range]
    constructor
    · rintro ⟨hmn, hmp⟩
      by_cases hm2 : m = 2
      · exact Or.inl hm2
      · refine Or.inr ⟨hmn, hmp, ?_⟩
        by_contra h
        have heven : Even m := ⟨m / 2, by omega⟩
        exact hm2 (hmp.even_iff.mp heven)
    · rintro (rfl | ⟨hmn, hmp, _⟩)
      · exact ⟨by omega, Nat.prime_two⟩
      · exact ⟨hmn, hmp⟩
  rw [hins, Finset.card_insert_of_not_mem (by simp [oddPrimesBelow]), Nat.add_comm]

theorem card_oddPrimesBelow_eq_countHits (n : Nat) :
    (oddPrimesBelow n).card = countHits (fun m => isPrimeTD m && decide (m % 2 = 1)) n := by
  rw [countHits_eq_card]
  congr 1
  apply Finset.filter_congr
  intro m _
  rw [Bool.and_eq_true, decide_eq_true_eq]
  constructor
  · rintro ⟨h1, h2⟩
    exact ⟨(isPrimeTD_iff m).mpr h1, h2⟩
  · rintro ⟨h1, h2⟩
    exact ⟨(isPrimeTD_iff m).mp h1, h2⟩

theorem card_oddPrimesBelow_1 : (oddPrimesBelow 1).card = 0 := by
  rw [card_oddPrimesBelow_eq_countHits]
  rfl

theorem card_oddPrimesBelow_2 : (oddPrimesBelow 2).card = 0 := by
  rw [card_oddPrimesBelow_eq_countHits]
  rfl

theorem card_oddPrimesBelow_3 : (oddPrimesBelow 3).card = 0 := by
  rw [card_oddPrimesBelow_eq_countHits]
  rfl

theorem card_oddPrimesBelow_10 : (oddPrimesBelow 10).card = 3 := by
  rw [card_oddPrimesBelow_eq_countHits]
  rfl

theorem card_oddPrimesBelow_100 : (oddPrimesBelow 100).card = 24 := by
  rw [card_oddPrimesBelow_eq_countHits]
  rfl

theorem card_oddPrimesBelow_1000 : (oddPrimesBelow 1000).card = 167 := by
  rw [card_oddPrimesBelow_eq_countHits]
  rfl

/-! ### A bit mask sieve over one big natural number

To evaluate the prime count at bounds as large as one million inside the
kernel, the per-cell store is replaced by a single natural number whose bit
j stands for the cell of 2 * j + 1.  Crossing off an arithmetic progression
of cells becomes a single closed-form mask (a geometric sum, computed by one
exact division), and counting the set bits is done by a logarithmic
fold of shift, mask and add steps.  Shifts are written with 1 <<< e rather
than 2 ^ e so that the evaluator folds the literals. -/

theorem one_shiftLeft_eq (n : Nat) : 1 <<< n = 2 ^ n := by
  rw [Nat.shiftLeft_eq, Nat.one_mul]

theorem onesBlocksR_mul (B : Nat) :
    ∀ m : Nat, (2 ^ B - 1) * onesBlocksR B m = 2 ^ (B * m) - 1 := by
  intro m
  induction m with
  | zero => simp [onesBlocksR]
  | succ m ih =>
    have hx : 1 ≤ 2 ^ B := Nat.one_le_two_pow
    have hy : 1 ≤ 2 ^ (B * m) := Nat.one_le_two_pow
    have hpow : 2 ^ (B * (m + 1)) = 2 ^ B * 2 ^ (B * m) := by
      rw [← pow_add]
      congr 1
      ring
    have hsub : 2 ^ B * (2 ^ (B * m) - 1) = 2 ^ B * 2 ^ (B * m) - 2 ^ B := by
      rw [Nat.mul_sub, Nat.mul_one]
    have hle : 2 ^ B ≤ 2 ^ B * 2 ^ (B * m) := Nat.le_mul_of_pos_right _ (by omega)
    calc (2 ^ B - 1) * onesBlocksR B (m + 1)
        = (2 ^ B - 1) * 1 + 2 ^ B * ((2 ^ B - 1) * onesBlocksR B m) := by
          rw [onesBlocksR, Nat.mul_add]
          ring_nf
      _ = (2 ^ B - 1) + 2 ^ B * (2 ^ (B * m) - 1) := by rw [ih, Nat.mul_one]
      _ = 2 ^ (B * (m + 1)) - 1 := by rw [hsub, hpow]; omega

theorem onesBlocks_eq (B m : Nat) (hB : 1 ≤ B) : onesBlocks B m = onesBlocksR B m := by
  have h2 : 0 < 2 ^ B - 1 := by
    have : (2 : Nat) ^ 1 ≤ 2 ^ B := Nat.pow_le_pow_right (by omega) hB
    simp only [pow_one] at this
    omega
  unfold onesBlocks
  rw [one_shiftLeft_eq, one_shiftLeft_eq, ← onesBlocksR_mul B m,
    Nat.mul_div_cancel_left _ h2]

theorem onesBlocksR_succ' (B : Nat) :
    ∀ m : Nat, onesBlocksR B (m + 1) = onesBlocksR B m + 2 ^ (B * m) := by
  intro m
  induction m with
  | zero => simp [onesBlocksR]
  | succ m ih =>
    calc onesBlocksR B (m + 2)
        = 1 + 2 ^ B * onesBlocksR B (m + 1) := rfl
      _ = 1 + 2 ^ B * (onesBlocksR B m + 2 ^ (B * m)) := by rw [ih]
      _ = (1 + 2 ^ B * onesBlocksR B m) + 2 ^ B * 2 ^ (B * m) := by ring
      _ = onesBlocksR B (m + 1) + 2 ^ (B * (m + 1)) := by
          rw [← pow_add]
          congr 2
          ring

theorem progMask_lt (a d : Nat) (hd : 1 ≤ d) :
    ∀ m : Nat, progMask a d m < 2 ^ (a + d * m) := by
  intro m
  induction m with
  | zero => exact Nat.one_le_two_pow
  | succ m ih =>
    have h1 : 2 ^ (a + d * m + 1) ≤ 2 ^ (a + d * (m + 1)) :=
      Nat.pow_le_pow_right (by omega) (by nlinarith)
    have h2 : 2 ^ (a + d * m + 1) = 2 ^ (a + d * m) * 2 := pow_succ 2 _
    simp only [progMask]
    omega

theorem testBit_add_pow (x t i : Nat) (hx : x < 2 ^ t) :
    (x + 2 ^ t).testBit i = (decide (i = t) || x.testBit i) := by
  rcases Nat.lt_trichotomy i t with h | h | h
  · rw [Nat.testBit_to_div_mod, Nat.testBit_to_div_mod]
    have hdiv : (x + 2 ^ t) / 2 ^ i = x / 2 ^ i + 2 ^ (t - i) := by
      rw [show (2 : Nat) ^ t = 2 ^ (t - i) * 2 ^ i from by rw [← pow_add]; congr 1; omega]
      rw [Nat.add_mul_div_right _ _ (Nat.pos_pow_of_pos i (by omega))]
    have hev : 2 ^ (t - i) = 2 ^ (t - i - 1) * 2 := by
      rw [← pow_succ]
      congr 1
      omega
    have hne : decide (i = t) = false := by simp; omega
    rw [hdiv, hne, Bool.false_or]
    have hm : (x / 2 ^ i + 2 ^ (t - i)) % 2 = x / 2 ^ i % 2 := by omega
    rw [hm]
  · subst h
    have h1 : (x + 2 ^ i) / 2 ^ i = 1 := by
      rw [Nat.add_div_right _ (Nat.pos_pow_of_pos i (by omega)), Nat.div_eq_of_lt hx]
    rw [Nat.testBit_to_div_mod, h1]
    simp
  · have hpow : 2 ^ (t + 1) ≤ 2 ^ i := Nat.pow_le_pow_right (by omega) (by omega)
    have h2 : 2 ^ (t + 1) = 2 ^ t * 2 := pow_succ 2 t
    have h1 : x + 2 ^ t < 2 ^ i := by omega
    rw [Nat.testBit_lt_two_pow h1, Nat.testBit_lt_two_pow (by omega)]
    simp
    omega

theorem progMask_testBit (a d : Nat) (hd : 1 ≤ d) :
    ∀ (m i : Nat), (progMask a d m).testBit i = true ↔ ∃ k, k < m ∧ i = a + d * k := by
  intro m
  induction m with
  | zero =>
    intro i
    simp [progMask, Nat.zero_testBit]
  | succ m ih =>
    intro i
    simp only [progMask]
    rw [testBit_add_pow _ _ _ (progMask_lt a d hd m), Bool.or_eq_true, decide_eq_true_eq]
    constructor
    · rintro (rfl | h)
      · exact ⟨m, by omega, rfl⟩
      · obtain ⟨k, hk1, hk2⟩ := (ih i).mp h
        exact ⟨k, by omega, hk2⟩
    · rintro ⟨k, hk1, rfl⟩
      rcases Nat.lt_or_ge k m with hkm | hkm
      · exact Or.inr ((ih _).mpr ⟨k, hkm, rfl⟩)
      · have : k = m := by omega
        subst this
        exact Or.inl rfl

theorem progMask_eq (a d : Nat) : ∀ m : Nat, progMask a d m = 2 ^ a * onesBlocksR d m := by
  intro m
  induction m with
  | zero => simp [progMask, onesBlocksR]
  | succ m ih =>
    rw [progMask, onesBlocksR_succ', Nat.mul_add, ← ih, ← pow_add]

theorem testBit_low_add_pow_mul (D z W : Nat) (hD : D < 2 ^ W) :
    ∀ i : Nat, (D + 2 ^ W * z).testBit i =
      if i < W then D.testBit i else z.testBit (i - W) := by
  intro i
  split
  · next h =>
    rw [Nat.testBit_to_div_mod, Nat.testBit_to_div_mod]
    have hdiv : (D + 2 ^ W * z) / 2 ^ i = D / 2 ^ i + 2 ^ (W - i) * z := by
      rw [show (2 : Nat) ^ W * z = 2 ^ (W - i) * z * 2 ^ i from by
        rw [show (2 : Nat) ^ W = 2 ^ (W - i) * 2 ^ i from by rw [← pow_add]; congr 1; omega]
        ring]
      rw [Nat.add_mul_div_right _ _ (Nat.pos_pow_of_pos i (by omega))]
    rw [hdiv]
    obtain ⟨k, hk⟩ : ∃ k, W - i = k + 1 := ⟨W - i - 1, by omega⟩
    have heven : 2 ^ (W - i) * z = 2 * (2 ^ k * z) := by
      rw [hk, pow_succ]
      ring
    have hm : (D / 2 ^ i + 2 ^ (W - i) * z) % 2 = D / 2 ^ i % 2 := by omega
    rw [hm]
  · next h =>
    rw [Nat.testBit_to_div_mod, Nat.testBit_to_div_mod]
    have hdiv : (D + 2 ^ W * z) / 2 ^ i = z / 2 ^ (i - W) := by
      have h1 : (D + 2 ^ W * z) / 2 ^ W = z := by
        rw [Nat.mul_comm, Nat.add_mul_div_right _ _ (Nat.pos_pow_of_pos W (by omega)),
          Nat.div_eq_of_lt hD]
        omega
      rw [show (2 : Nat) ^ i = 2 ^ W * 2 ^ (i - W) from by rw [← pow_add]; congr 1; omega,
        ← Nat.div_div_eq_div_mul, h1]
    rw [hdiv]

theorem land_add_pow_mul (W D E x y : Nat) (hD : D < 2 ^ W) (hE : E < 2 ^ W) :
    (D + 2 ^ W * x) &&& (E + 2 ^ W * y) = (D &&& E) + 2 ^ W * (x &&& y) := by
  have hDE : D &&& E < 2 ^ W := Nat.lt_of_le_of_lt Nat.and_le_left hD
  apply Nat.eq_of_testBit_eq
  intro i
  rw [Nat.testBit_and, testBit_low_add_pow_mul _ _ _ hD, testBit_low_add_pow_mul _ _ _ hE,
    testBit_low_add_pow_mul _ _ _ hDE]
  split
  · rw [Nat.testBit_and]
  · rw [Nat.testBit_and]

theorem fieldSum_zero (B : Nat) : fieldSum B 0 = 0 := by
  rw [fieldSum]
  simp

theorem fieldSum_step (B x : Nat) (hB : 1 ≤ B) :
    fieldSum B x = x % 2 ^ B + fieldSum B (x / 2 ^ B) := by
  rw [fieldSum]
  split
  · next h =>
    rcases h with h | h
    · subst h
      simp [fieldSum_zero]
    · omega
  · rfl

theorem fieldSum_of_lt (B x : Nat) (hB : 1 ≤ B) (hx : x < 2 ^ B) : fieldSum B x = x := by
  rw [fieldSum_step B x hB, Nat.mod_eq_of_lt hx, Nat.div_eq_of_lt hx, fieldSum_zero]
  omega

theorem fieldSum_split (B : Nat) (hB : 1 ≤ B) :
    ∀ (j low high : Nat), low < 2 ^ (B * j) →
    fieldSum B (low + 2 ^ (B * j) * high) = fieldSum B low + fieldSum B high := by
  intro j
  induction j with
  | zero =>
    intro low high hlow
    simp only [Nat.mul_zero, pow_zero] at hlow ⊢
    have : low = 0 := by omega
    subst this
    rw [fieldSum_zero]
    simp
  | succ j ih =>
    intro low high hlow
    have hpos : 0 < (2 : Nat) ^ B := Nat.pos_pow_of_pos B (by omega)
    have hsplit : 2 ^ (B * (j + 1)) = 2 ^ (B * j) * 2 ^ B := by
      rw [Nat.mul_succ, pow_add]
    have hmod : (low + 2 ^ (B * (j + 1)) * high) % 2 ^ B = low % 2 ^ B := by
      rw [show (2 : Nat) ^ (B * (j + 1)) * high = 2 ^ B * (2 ^ (B * j) * high) from by
        rw [hsplit]; ring]
      exact Nat.add_mul_mod_self_left low (2 ^ B) (2 ^ (B * j) * high)
    have hdiv : (low + 2 ^ (B * (j + 1)) * high) / 2 ^ B =
        low / 2 ^ B + 2 ^ (B * j) * high := by
      rw [show low + 2 ^ (B * (j + 1)) * high = low + 2 ^ (B * j) * high * 2 ^ B from by
        rw [hsplit]; ring]
      rw [Nat.add_mul_div_right _ _ hpos]
    have hlow2 : low / 2 ^ B < 2 ^ (B * j) := by
      rw [Nat.div_lt_iff_lt_mul hpos, ← hsplit]
      exact hlow
    rw [fieldSum_step B _ hB, hmod, hdiv, ih _ high hlow2, fieldSum_step B low hB]
    omega

/-! ### Counting set bits -/

theorem countHits_shift (f : Nat → Bool) :
    ∀ L : Nat, countHits f (L + 1) =
      (if f 0 then 1 else 0) + countHits (fun i => f (i + 1)) L := by
  intro L
  induction L with
  | zero => simp [countHits]
  | succ L ih =>
    rw [show L + 1 + 1 = (L + 1) + 1 from rfl, countHits, ih, countHits]
    omega

theorem fieldSum_one_eq_countHits :
    ∀ (L x : Nat), x < 2 ^ L → fieldSum 1 x = countHits (fun i => x.testBit i) L := by
  intro L
  induction L with
  | zero =>
    intro x hx
    have : x = 0 := by simpa using hx
    subst this
    rw [fieldSum_zero]
    rfl
  | succ L ih =>
    intro x hx
    have hx2 : x / 2 < 2 ^ L := by
      rw [Nat.div_lt_iff_lt_mul (by omega)]
      rw [pow_succ] at hx
      exact hx
    rw [fieldSum_step 1 x (by omega), countHits_shift]
    rw [countHits_congr (fun i => x.testBit (i + 1)) (fun i => (x / 2).testBit i) L
      (fun j _ => Nat.testBit_add_one x j)]
    rw [← ih (x / 2) hx2]
    have hb : x.testBit 0 = decide (x % 2 = 1) := Nat.testBit_zero x
    rw [hb, pow_one]
    rcases Nat.mod_two_eq_zero_or_one x with h | h <;> simp [h]

theorem maskL_eq (b m : Nat) (hb : 1 ≤ b) : maskL b m = maskLR b m := by
  unfold maskL maskLR
  rw [one_shiftLeft_eq, onesBlocks_eq (2 * b) m (by omega)]

theorem maskLR_succ (b m : Nat) :
    maskLR b (m + 1) = (2 ^ b - 1) + 2 ^ (2 * b) * maskLR b m := by
  unfold maskLR
  rw [onesBlocksR, Nat.mul_add, Nat.mul_one]
  congr 1
  ring

theorem maskLR_zero (b : Nat) : maskLR b 0 = 0 := by
  simp [maskLR, onesBlocksR]

theorem swar_step (b : Nat) (hb : 1 ≤ b) :
    ∀ (m x : Nat), x < 2 ^ (2 * b * m) →
    ((x &&& maskLR b m) + ((x >>> b) &&& maskLR b m)) < 2 ^ (2 * b * m) ∧
      fieldSum (2 * b) ((x &&& maskLR b m) + ((x >>> b) &&& maskLR b m)) = fieldSum b x := by
  intro m
  induction m with
  | zero =>
    intro x hx
    have hx0 : x = 0 := by simpa using hx
    subst hx0
    rw [maskLR_zero]
    simp only [Nat.and_zero, Nat.zero_add, Nat.mul_zero, pow_zero]
    exact ⟨by omega, by rw [fieldSum_zero, fieldSum_zero]⟩
  | succ m ih =>
    intro x hx
    have hbpos : 0 < (2 : Nat) ^ b := Nat.pos_pow_of_pos b (by omega)
    have hWpos : 0 < (2 : Nat) ^ (2 * b) := Nat.pos_pow_of_pos _ (by omega)
    have hbb : (2 : Nat) ^ (2 * b) = 2 ^ b * 2 ^ b := by
      rw [show 2 * b = b + b from by ring, pow_add]
    have hWW : (2 : Nat) ^ (2 * b * (m + 1)) = 2 ^ (2 * b * m) * 2 ^ (2 * b) := by
      rw [← pow_add, show 2 * b * m + 2 * b = 2 * b * (m + 1) from by ring]
    have hD : x % 2 ^ (2 * b) < 2 ^ (2 * b) := Nat.mod_lt _ hWpos
    have hxsplit : x = x % 2 ^ (2 * b) + 2 ^ (2 * b) * (x / 2 ^ (2 * b)) :=
      (Nat.mod_add_div x (2 ^ (2 * b))).symm
    have hx' : x / 2 ^ (2 * b) < 2 ^ (2 * b * m) := by
      rw [Nat.div_lt_iff_lt_mul hWpos, ← hWW]
      exact hx
    have hE : (2 : Nat) ^ b - 1 < 2 ^ (2 * b) := by
      have : (2 : Nat) ^ b ≤ 2 ^ (2 * b) := Nat.pow_le_pow_right (by omega) (by omega)
      omega
    have h1div : x % 2 ^ (2 * b) / 2 ^ b < 2 ^ b := by
      rw [Nat.div_lt_iff_lt_mul hbpos, ← hbb]
      exact hD
    have hshr : (x / 2 ^ (2 * b)) >>> b = x / 2 ^ (2 * b) / 2 ^ b :=
      Nat.shiftRight_eq_div_pow _ b
    have hA : x &&& maskLR b (m + 1) =
        x % 2 ^ (2 * b) % 2 ^ b + 2 ^ (2 * b) * (x / 2 ^ (2 * b) &&& maskLR b m) := by
      conv_lhs => rw [hxsplit, maskLR_succ]
      rw [land_add_pow_mul (2 * b) _ _ _ _ hD hE, Nat.and_pow_two_sub_one_eq_mod]
    have hshift : x >>> b =
        (x % 2 ^ (2 * b) / 2 ^ b + 2 ^ b * (x / 2 ^ (2 * b) % 2 ^ b)) +
          2 ^ (2 * b) * (x / 2 ^ (2 * b) / 2 ^ b) := by
      rw [Nat.shiftRight_eq_div_pow]
      conv_lhs => rw [hxsplit]
      rw [show (2 : Nat) ^ (2 * b) * (x / 2 ^ (2 * b)) =
          2 ^ b * (x / 2 ^ (2 * b)) * 2 ^ b from by rw [hbb]; ring]
      rw [Nat.add_mul_div_right _ _ hbpos]
      conv_lhs => rw [show (2 : Nat) ^ b * (x / 2 ^ (2 * b)) =
        2 ^ b * (x / 2 ^ (2 * b) % 2 ^ b) + 2 ^ (2 * b) * (x / 2 ^ (2 * b) / 2 ^ b) from by
          conv_lhs => rw [show x / 2 ^ (2 * b) =
            x / 2 ^ (2 * b) % 2 ^ b + 2 ^ b * (x / 2 ^ (2 * b) / 2 ^ b) from
              (Nat.mod_add_div _ _).symm]
          rw [Nat.mul_add, ← Nat.mul_assoc, ← hbb]]
      ring
    have hL : x % 2 ^ (2 * b) / 2 ^ b + 2 ^ b * (x / 2 ^ (2 * b) % 2 ^ b) < 2 ^ (2 * b) := by
      have h2 : x / 2 ^ (2 * b) % 2 ^ b ≤ 2 ^ b - 1 := by
        have := Nat.mod_lt (x / 2 ^ (2 * b)) hbpos
        omega
      have h3 : 2 ^ b * (x / 2 ^ (2 * b) % 2 ^ b) ≤ 2 ^ b * (2 ^ b - 1) :=
        Nat.mul_le_mul_left _ h2
      have h4 : (2 : Nat) ^ b * (2 ^ b - 1) = 2 ^ (2 * b) - 2 ^ b := by
        rw [Nat.mul_sub, Nat.mul_one, ← hbb]
      omega
    have hB : x >>> b &&& maskLR b (m + 1) =
        x % 2 ^ (2 * b) / 2 ^ b +
          2 ^ (2 * b) * (x / 2 ^ (2 * b) / 2 ^ b &&& maskLR b m) := by
      rw [hshift, maskLR_succ, land_add_pow_mul (2 * b) _ _ _ _ hL hE,
        Nat.and_pow_two_sub_one_eq_mod, Nat.add_mul_mod_self_left,
        Nat.mod_eq_of_lt h1div]
    obtain ⟨hylt, hyeq⟩ := ih (x / 2 ^ (2 * b)) hx'
    rw [hshr] at hylt hyeq
    have hsum : (x &&& maskLR b (m + 1)) + (x >>> b &&& maskLR b (m + 1)) =
        (x % 2 ^ (2 * b) % 2 ^ b + x % 2 ^ (2 * b) / 2 ^ b) +
          2 ^ (2 * b) * ((x / 2 ^ (2 * b) &&& maskLR b m) +
            (x / 2 ^ (2 * b) / 2 ^ b &&& maskLR b m)) := by
      rw [hA, hB]
      ring
    have hlow : x % 2 ^ (2 * b) % 2 ^ b + x % 2 ^ (2 * b) / 2 ^ b < 2 ^ (2 * b) := by
      have h1 : x % 2 ^ (2 * b) % 2 ^ b < 2 ^ b := Nat.mod_lt _ hbpos
      have h2 : (2 : Nat) ^ b + 2 ^ b ≤ 2 ^ (2 * b) := by
        have h3 : (2 : Nat) ^ (b + 1) ≤ 2 ^ (2 * b) := Nat.pow_le_pow_right (by omega) (by omega)
        have h4 : (2 : Nat) ^ (b + 1) = 2 ^ b * 2 := pow_succ 2 b
        omega
      omega
    constructor
    · rw [hsum]
      have h5 : ((x / 2 ^ (2 * b) &&& maskLR b m) +
          (x / 2 ^ (2 * b) / 2 ^ b &&& maskLR b m)) + 1 ≤ 2 ^ (2 * b * m) := by omega
      have h6 : 2 ^ (2 * b) * (((x / 2 ^ (2 * b) &&& maskLR b m) +
          (x / 2 ^ (2 * b) / 2 ^ b &&& maskLR b m)) + 1) ≤ 2 ^ (2 * b) * 2 ^ (2 * b * m) :=
        Nat.mul_le_mul_left _ h5
      have h7 : 2 ^ (2 * b) * (((x / 2 ^ (2 * b) &&& maskLR b m) +
          (x / 2 ^ (2 * b) / 2 ^ b &&& maskLR b m)) + 1) =
          2 ^ (2 * b) * ((x / 2 ^ (2 * b) &&& maskLR b m) +
          (x / 2 ^ (2 * b) / 2 ^ b &&& maskLR b m)) + 2 ^ (2 * b) := by
        rw [Nat.mul_add, Nat.mul_one]
      have h8 : (2 : Nat) ^ (2 * b) * 2 ^ (2 * b * m) = 2 ^ (2 * b * (m + 1)) := by
        rw [hWW]
        exact Nat.mul_comm _ _
      omega
    · rw [hsum]
      have hsp := fieldSum_split (2 * b) (by omega) 1
        (x % 2 ^ (2 * b) % 2 ^ b + x % 2 ^ (2 * b) / 2 ^ b)
        ((x / 2 ^ (2 * b) &&& maskLR b m) + (x / 2 ^ (2 * b) / 2 ^ b &&& maskLR b m))
        (by rw [Nat.mul_one]; exact hlow)
      rw [Nat.mul_one] at hsp
      rw [hsp, fieldSum_of_lt (2 * b) _ (by omega) hlow, hyeq]
      have hsp2 := fieldSum_split b hb 2 (x % 2 ^ (2 * b)) (x / 2 ^ (2 * b))
        (by rw [show b * 2 = 2 * b from by ring]; exact hD)
      rw [show (2 : Nat) ^ (b * 2) = 2 ^ (2 * b) from by
        rw [show b * 2 = 2 * b from by ring]] at hsp2
      rw [← hxsplit] at hsp2
      rw [hsp2, fieldSum_step b (x % 2 ^ (2 * b)) hb,
        fieldSum_of_lt b (x % 2 ^ (2 * b) / 2 ^ b) hb h1div]

theorem popRun_eq : ∀ (s b x : Nat), 1 ≤ b → x < 2 ^ (b * 2 ^ s) →
    popRun s b x = fieldSum b x := by
  intro s
  induction s with
  | zero =>
    intro b x hb hx
    simp only [pow_zero, Nat.mul_one] at hx
    simp only [popRun]
    exact (fieldSum_of_lt b x hb hx).symm
  | succ s ih =>
    intro b x hb hx
    have hexp : b * 2 ^ (s + 1) = 2 * b * 2 ^ s := by
      rw [pow_succ]
      ring
    rw [hexp] at hx
    have hstep := swar_step b hb (2 ^ s) x hx
    simp only [popRun]
    rw [one_shiftLeft_eq, maskL_eq b _ hb]
    rw [ih (2 * b) _ (by omega) hstep.1, hstep.2]

theorem lt_ceil_div (y k X : Nat) (hy : 0 < y) : k < (X + (y - 1)) / y ↔ y * k < X := by
  constructor
  · intro h
    have h1 : (k + 1) * y ≤ X + (y - 1) := (Nat.le_div_iff_mul_le hy).mp (by omega)
    have h2 : (k + 1) * y = k * y + y := by ring
    have h3 : y * k = k * y := Nat.mul_comm y k
    omega
  · intro h
    have h3 : y * k = k * y := Nat.mul_comm y k
    have h1 : (k + 1) * y ≤ X + (y - 1) := by
      have h2 : (k + 1) * y = k * y + y := by ring
      omega
    have := (Nat.le_div_iff_mul_le hy).mpr h1
    omega

theorem lt_progLen (N d k : Nat) (hd : 1 ≤ d) :
    k < progLen N d ↔ d * d + 2 * d * k < N := by
  unfold progLen
  rw [lt_ceil_div (2 * d) k (N - d * d) (by omega)]
  have h1 : 2 * d * k = 2 * d * k := rfl
  omega

theorem testBit_progMask_form (N d j : Nat) (hd3 : 3 ≤ d) (hdodd : d % 2 = 1) :
    ((1 <<< (d * d / 2)) * onesBlocks d (progLen N d)).testBit j = true ↔
      ∃ k, d * d + 2 * d * k < N ∧ j = (d * d + 2 * d * k) / 2 := by
  rw [one_shiftLeft_eq, onesBlocks_eq d _ (by omega), ← progMask_eq,
    progMask_testBit (d * d / 2) d (by omega) (progLen N d) j]
  have hdd : d * d % 2 = 1 := by
    rw [Nat.mul_mod, hdodd]
  constructor
  · rintro ⟨k, hk1, rfl⟩
    rw [lt_progLen N d k (by omega)] at hk1
    have h2dk : 2 * d * k = 2 * (d * k) := by ring
    exact ⟨k, hk1, by omega⟩
  · rintro ⟨k, hk1, rfl⟩
    have h2dk : 2 * d * k = 2 * (d * k) := by ring
    exact ⟨k, (lt_progLen N d k (by omega)).mpr hk1, by omega⟩

theorem sieveMaskAux_testBit (N : Nat) :
    ∀ (fuel d : Nat), 3 ≤ d → d % 2 = 1 → Nat.sqrt N < d + 2 * fuel →
    ∀ j, (sieveMaskAux N fuel d).testBit j = true ↔
      ∃ e k, d ≤ e ∧ e % 2 = 1 ∧ e * e + 2 * e * k < N ∧ j = (e * e + 2 * e * k) / 2 := by
  intro fuel
  induction fuel with
  | zero =>
    intro d hd3 hdodd hfuel j
    simp only [sieveMaskAux, Nat.zero_testBit, Bool.false_eq_true, false_iff]
    rintro ⟨e, k, hde, _, hlt, _⟩
    have hsq : e * e < N := by nlinarith [Nat.zero_le (2 * e * k)]
    have := Nat.le_sqrt.mpr (Nat.le_of_lt hsq)
    omega
  | succ fuel ih =>
    intro d hd3 hdodd hfuel j
    simp only [sieveMaskAux]
    split
    · next hcond =>
      rw [Nat.testBit_or, Bool.or_eq_true, testBit_progMask_form N d j hd3 hdodd,
        ih (d + 2) (by omega) (by omega) (by omega) j]
      constructor
      · rintro (⟨k, hk1, rfl⟩ | ⟨e, k, hde, heodd, hlt, rfl⟩)
        · exact ⟨d, k, le_rfl, hdodd, hk1, rfl⟩
        · exact ⟨e, k, by omega, heodd, hlt, rfl⟩
      · rintro ⟨e, k, hde, heodd, hlt, rfl⟩
        rcases Nat.eq_or_lt_of_le hde with heq | hlt2
        · subst heq
          exact Or.inl ⟨k, hlt, rfl⟩
        · exact Or.inr ⟨e, k, by omega, heodd, hlt, rfl⟩
    · next hcond =>
      simp only [Nat.zero_testBit, Bool.false_eq_true, false_iff]
      rintro ⟨e, k, hde, _, hlt, _⟩
      have h1 : d * d ≤ e * e := Nat.mul_le_mul hde hde
      have h2 : e * e ≤ e * e + 2 * e * k := by omega
      omega

theorem odd_composite_decomp (c : Nat) (hodd : c % 2 = 1) (h3 : 3 ≤ c)
    (hnp : ¬ Nat.Prime c) :
    ∃ e k, 3 ≤ e ∧ e % 2 = 1 ∧ c = e * e + 2 * e * k := by
  have hp := Nat.minFac_prime (show c ≠ 1 from by omega)
  have hdvd := Nat.minFac_dvd c
  have hsq : c.minFac * c.minFac ≤ c := by
    have h2 := Nat.minFac_sq_le_self (by omega) hnp
    rw [pow_two] at h2
    exact h2
  have hpodd : c.minFac % 2 = 1 := by
    by_contra h2
    have heven : Even c.minFac := ⟨c.minFac / 2, by omega⟩
    have h4 := hp.even_iff.mp heven
    rw [h4] at hdvd
    omega
  have hp3 : 3 ≤ c.minFac := by
    have := hp.two_le
    omega
  obtain ⟨e', he'⟩ := hdvd
  have hee : c.minFac ≤ e' := by
    have hpos : 0 < c.minFac := by omega
    have h5 : c.minFac * c.minFac ≤ c.minFac * e' := by rw [← he']; exact hsq
    exact Nat.le_of_mul_le_mul_left h5 hpos
  have he'odd : e' % 2 = 1 := by
    have hmod : c.minFac * e' % 2 = c.minFac % 2 * (e' % 2) % 2 := Nat.mul_mod _ _ _
    rw [← he', hpodd, Nat.one_mul] at hmod
    omega
  refine ⟨c.minFac, (e' - c.minFac) / 2, hp3, hpodd, ?_⟩
  have h2 : 2 * ((e' - c.minFac) / 2) = e' - c.minFac := by omega
  calc c = c.minFac * e' := he'
    _ = c.minFac * c.minFac + c.minFac * (e' - c.minFac) := by
        rw [← Nat.mul_add]
        congr 1
        omega
    _ = c.minFac * c.minFac + 2 * c.minFac * ((e' - c.minFac) / 2) := by
        rw [show 2 * c.minFac * ((e' - c.minFac) / 2) =
          c.minFac * (2 * ((e' - c.minFac) / 2)) from by ring, h2]

theorem card_filter_one_le (M : Nat) (hM : 1 ≤ M) :
    ((Finset.range M).filter (fun j => 1 ≤ j)).card = M - 1 := by
  have h1 : (Finset.range M).filter (fun j => 1 ≤ j) = (Finset.range M).erase 0 := by
    ext j
    simp only [Finset.mem_filter, Finset.mem_erase, Finset.mem_range]
    omega
  rw [h1, Finset.card_erase_of_mem (Finset.mem_range.mpr (by omega)), Finset.card_range]

theorem card_odd_prime_cells (n : Nat) :
    ((Finset.range (n / 2)).filter (fun j => 1 ≤ j ∧ Nat.Prime (2 * j + 1))).card =
      (oddPrimesBelow n).card := by
  apply Finset.card_nbij (fun j => 2 * j + 1)
  · intro j hj
    simp only [Finset.mem_filter, Finset.mem_range] at hj
    simp only [oddPrimesBelow, Finset.mem_filter, Finset.mem_range]
    exact ⟨by omega, hj.2.2, by omega⟩
  · intro a _ b _ hab
    simp only at hab
    omega
  · intro m hm
    simp only [Finset.coe_filter, Set.mem_setOf_eq, Finset.mem_range, oddPrimesBelow,
      Finset.mem_coe, Finset.mem_filter] at hm
    obtain ⟨hmn, hmp, hmodd⟩ := hm
    have hm3 : 3 ≤ m := by
      have := hmp.two_le
      rcases Nat.eq_or_lt_of_le this with h2 | h2
      · exfalso
        omega
      · omega
    refine ⟨m / 2, ?_, by show 2 * (m / 2) + 1 = m; omega⟩
    simp only [Finset.coe_filter, Set.mem_setOf_eq, Finset.mem_range]
    refine ⟨by omega, by omega, ?_⟩
    rw [show 2 * (m / 2) + 1 = m from by omega]
    exact hmp

theorem card_composite_cells (n : Nat) :
    ((Finset.range (n / 2)).filter (fun j => 1 ≤ j ∧ ¬ Nat.Prime (2 * j + 1))).card =
      (n / 2 - 1) - (oddPrimesBelow n).card := by
  rcases Nat.lt_or_ge (n / 2) 1 with hn | hn
  · have h0 : n / 2 = 0 := by omega
    rw [h0]
    simp
  · have hsplit1 : (Finset.range (n / 2)).filter (fun j => 1 ≤ j ∧ Nat.Prime (2 * j + 1)) =
        ((Finset.range (n / 2)).filter (fun j => 1 ≤ j)).filter
          (fun j => Nat.Prime (2 * j + 1)) := by
      rw [Finset.filter_filter]
    have hsplit2 : (Finset.range (n / 2)).filter (fun j => 1 ≤ j ∧ ¬ Nat.Prime (2 * j + 1)) =
        ((Finset.range (n / 2)).filter (fun j => 1 ≤ j)).filter
          (fun j => ¬ Nat.Prime (2 * j + 1)) := by
      rw [Finset.filter_filter]
    have hpart := @Finset.filter_card_add_filter_neg_card_eq_card Nat
      ((Finset.range (n / 2)).filter (fun j => 1 ≤ j))
      (fun j => Nat.Prime (2 * j + 1)) _ _
    rw [← hsplit1, ← hsplit2, card_filter_one_le (n / 2) hn, card_odd_prime_cells n] at hpart
    omega

theorem card_oddPrimesBelow_1000000 : (oddPrimesBelow 1000000).card = 78497 := by
  have hfuel : Nat.sqrt 1000000 < 3 + 2 * 1024 := by
    have := Nat.sqrt_lt.mpr (show (1000000 : Nat) < 2051 * 2051 from by norm_num)
    omega
  have hchar0 := sieveMaskAux_testBit 1000000 1024 3 (by omega) (by omega) hfuel
  have hchar : ∀ j, (sieveMaskAux 1000000 1024 3).testBit j = true ↔
      (1 ≤ j ∧ 2 * j + 1 < 1000000 ∧ ¬ Nat.Prime (2 * j + 1)) := by
    intro j
    rw [hchar0 j]
    constructor
    · rintro ⟨e, k, hde, heodd, hlt, rfl⟩
      have hee : e * e % 2 = 1 := by rw [Nat.mul_mod, heodd]
      have h2ek : 2 * e * k = 2 * (e * k) := by ring
      have h9 : 9 ≤ e * e := by
        calc 9 = 3 * 3 := rfl
        _ ≤ e * e := Nat.mul_le_mul hde hde
      have hceq : 2 * ((e * e + 2 * e * k) / 2) + 1 = e * e + 2 * e * k := by omega
      refine ⟨by omega, by omega, ?_⟩
      rw [hceq, show e * e + 2 * e * k = e * (e + 2 * k) from by ring]
      exact Nat.not_prime_mul (by omega) (by omega)
    · rintro ⟨hj1, hjN, hnp⟩
      obtain ⟨e, k, he3, heodd, hck⟩ :=
        odd_composite_decomp (2 * j + 1) (by omega) (by omega) hnp
      exact ⟨e, k, he3, heodd, by omega, by omega⟩
  have hbound : sieveMaskAux 1000000 1024 3 < 2 ^ 500000 := by
    apply Nat.lt_pow_two_of_testBit
    intro i hi
    cases h : (sieveMaskAux 1000000 1024 3).testBit i with
    | false => rfl
    | true =>
      obtain ⟨_, h2, _⟩ := (hchar i).mp h
      omega
  have hpop : popRun 19 1 (sieveMaskAux 1000000 1024 3) = 421502 := by rfl
  have hM2 : sieveMaskAux 1000000 1024 3 < 2 ^ (1 * 2 ^ 19) := by
    have h19 : (2 : Nat) ^ 500000 ≤ 2 ^ (1 * 2 ^ 19) :=
      Nat.pow_le_pow_right (by omega) (by norm_num)
    omega
  have hfs : fieldSum 1 (sieveMaskAux 1000000 1024 3) = 421502 := by
    rw [← popRun_eq 19 1 _ (by omega) hM2]
    exact hpop
  have hcount : countHits (fun i => (sieveMaskAux 1000000 1024 3).testBit i) 500000 = 421502 := by
    rw [← fieldSum_one_eq_countHits 500000 _ hbound]
    exact hfs
  have hpred : ∀ j, j < 500000 → (sieveMaskAux 1000000 1024 3).testBit j =
      decide (1 ≤ j ∧ ¬ Nat.Prime (2 * j + 1)) := by
    intro j hj
    cases h : (sieveMaskAux 1000000 1024 3).testBit j with
    | false =>
      symm
      rw [decide_eq_false_iff_not]
      rintro ⟨h1, h3⟩
      have h4 := (hchar j).mpr ⟨h1, by omega, h3⟩
      rw [h] at h4
      cases h4
    | true =>
      symm
      rw [decide_eq_true_eq]
      obtain ⟨h1, _, h3⟩ := (hchar j).mp h
      exact ⟨h1, h3⟩
  have hcard : ((Finset.range 500000).filter
      (fun j => 1 ≤ j ∧ ¬ Nat.Prime (2 * j + 1))).card = 421502 := by
    rw [← hcount,
      countHits_congr _ (fun j => decide (1 ≤ j ∧ ¬ Nat.Prime (2 * j + 1))) 500000 hpred,
      countHits_eq_card]
    simp only [decide_eq_true_eq]
  have hcomp := card_composite_cells 1000000
  rw [show (1000000 : Nat) / 2 = 500000 from by norm_num] at hcomp
  rw [hcard] at hcomp
  omega

/-! ### Helper results feeding the claim theorems -/

theorem getElem?_eq_some_getD (b : List Bool) (i : Nat) (h : i < b.length) :
    b[i]? = some (b.getD i false) := by
  rw [List.getD_eq_getElem?_getD, List.getElem?_eq_getElem h]
  rfl

theorem runSieve_bits_eq (n t1 t2 : Nat) (h1 : 0 < t1) (h2 : 0 < t2) :
    (prime_sieve.init n t1).runSieve.Bits = (prime_sieve.init n t2).runSieve.Bits := by
  apply List.ext_getElem?
  intro i
  rcases Nat.lt_or_ge i (n / 2) with hi | hi
  · have hl1 : i < (prime_sieve.init n t1).runSieve.Bits.length := by
      rw [runSieve_length]; exact hi
    have hl2 : i < (prime_sieve.init n t2).runSieve.Bits.length := by
      rw [runSieve_length]; exact hi
    have hg : (prime_sieve.init n t1).runSieve.Bits.getD i false =
        (prime_sieve.init n t2).runSieve.Bits.getD i false := by
      have hin : 2 * i + 1 < n := by omega
      have hiff1 := post_run_getD n t1 h1 i hin
      have hiff2 := post_run_getD n t2 h2 i hin
      cases hv1 : (prime_sieve.init n t1).runSieve.Bits.getD i false with
      | true =>
        rw [hv1] at hiff1
        rw [(hiff2.mpr (hiff1.mp rfl))]
      | false =>
        cases hv2 : (prime_sieve.init n t2).runSieve.Bits.getD i false with
        | false => rfl
        | true =>
          rw [hv2] at hiff2
          rw [hv1] at hiff1
          have := hiff1.mpr (hiff2.mp rfl)
          cases this
    rw [getElem?_eq_some_getD _ _ hl1, getElem?_eq_some_getD _ _ hl2, hg]
  · rw [List.getElem?_eq_none (by rw [runSieve_length]; omega),
      List.getElem?_eq_none (by rw [runSieve_length]; omega)]

theorem validateResults_some (s : prime_sieve) (c : Nat)
    (h : resultsDictionary.lookup s.Size = some c) :
    s.validateResults = (c == s.countPrimes) := by
  unfold prime_sieve.validateResults
  rw [h]

theorem validateResults_none (s : prime_sieve)
    (h : resultsDictionary.lookup s.Size = none) :
    s.validateResults = false := by
  unfold prime_sieve.validateResults
  rw [h]

theorem countPrimes_run_eq_primesBelow (n t : Nat) (ht : 0 < t) (hn : 3 ≤ n) :
    ((prime_sieve.init n t).runSieve).countPrimes = (primesBelow n).card := by
  rw [countPrimes_run n t ht, card_primesBelow n hn, if_pos (by omega)]

/-! ### The claims -/

/-- Claim C1.  After run() completes, cell i of the bit store is true if and
only if 2 i + 1 is prime, for every i with 2 i + 1 below the limit.  The
count of primes reported by countPrimes() after run() equals the number of
primes below the limit for every limit of at least 3, and in particular it
equals the documented table count at the four literal table rows: 4 at
limit 10, 25 at limit 100, 168 at limit 1000 and 78498 at limit one
million. -/
theorem C1_post_run_cells_and_counts :
    (∀ n t, 0 < t → ∀ i, 2 * i + 1 < n →
      ((prime_sieve.init n t).runSieve.Bits.getD i false = true ↔ Nat.Prime (2 * i + 1))) ∧
    (∀ n t, 0 < t → 3 ≤ n →
      ((prime_sieve.init n t).runSieve).countPrimes = (primesBelow n).card) ∧
    (∀ t, 0 < t →
      ((prime_sieve.init 10 t).runSieve).countPrimes = 4 ∧
      ((prime_sieve.init 100 t).runSieve).countPrimes = 25 ∧
      ((prime_sieve.init 1000 t).runSieve).countPrimes = 168 ∧
      ((prime_sieve.init 1000000 t).runSieve).countPrimes = 78498) := by
  refine ⟨post_run_getD, countPrimes_run_eq_primesBelow, ?_⟩
  intro t ht
  refine ⟨?_, ?_, ?_, ?_⟩
  · rw [countPrimes_run 10 t ht, card_oddPrimesBelow_10]
    decide
  · rw [countPrimes_run 100 t ht, card_oddPrimesBelow_100]
    norm_num
  · rw [countPrimes_run 1000 t ht, card_oddPrimesBelow_1000]
    norm_num
  · rw [countPrimes_run 1000000 t ht, card_oddPrimesBelow_1000000]
    norm_num

theorem C1_witness :
    (0 < 1 ∧ 2 * 3 + 1 < 10 ∧
      ((prime_sieve.init 10 1).runSieve.Bits.getD 3 false = true ↔ Nat.Prime (2 * 3 + 1))) ∧
    ((prime_sieve.init 10 1).runSieve).countPrimes = 4 :=
  ⟨⟨by decide, by decide,
      C1_post_run_cells_and_counts.1 10 1 (by decide) 3 (by decide)⟩,
    (C1_post_run_cells_and_counts.2.2 1 (by decide)).1⟩

/-- Claim C2.  For every limit, running the sieve to completion with any of
the worker counts 1, 2, 4 and 8 yields the same final bit store, the same
countPrimes() result, and the same isPrime verdict for every number. -/
theorem C2_worker_count_determinism :
    ∀ (limit t1 t2 : Nat),
    (t1 = 1 ∨ t1 = 2 ∨ t1 = 4 ∨ t1 = 8) → (t2 = 1 ∨ t2 = 2 ∨ t2 = 4 ∨ t2 = 8) →
    (prime_sieve.init limit t1).runSieve.Bits = (prime_sieve.init limit t2).runSieve.Bits ∧
    ((prime_sieve.init limit t1).runSieve).countPrimes =
      ((prime_sieve.init limit t2).runSieve).countPrimes ∧
    ∀ m, (prime_sieve.init limit t1).runSieve.isPrime m =
      (prime_sieve.init limit t2).runSieve.isPrime m := by
  intro limit t1 t2 h1 h2
  have hbits := runSieve_bits_eq limit t1 t2 (by omega) (by omega)
  refine ⟨hbits, ?_, ?_⟩
  · unfold prime_sieve.countPrimes
    rw [show (prime_sieve.init limit t1).runSieve.Size = limit from rfl,
      show (prime_sieve.init limit t2).runSieve.Size = limit from rfl, hbits]
  · intro m
    unfold prime_sieve.isPrime
    rw [hbits]

theorem C2_witness :
    (2 = 1 ∨ 2 = 2 ∨ 2 = 4 ∨ 2 = 8) ∧ (8 = 1 ∨ 8 = 2 ∨ 8 = 4 ∨ 8 = 8) ∧
    ((prime_sieve.init 30 2).runSieve).countPrimes =
      ((prime_sieve.init 30 8).runSieve).countPrimes :=
  ⟨by decide, by decide,
    (C2_worker_count_determinism 30 2 8 (by decide) (by decide)).2.1⟩

/-- Claim C3, counterexample.  The claim states that after run() the method
isPrime agrees with trial division for every n below the limit; at limit 10
and n = 2 the code returns false while trial division reports 2 prime, so
the claim as stated is false. -/
theorem C3_counterexample :
    ¬ ((prime_sieve.init 10 1).runSieve.isPrime 2 = isPrimeTD 2) := by decide

/-- Claim C3, amended.  After run(), isPrime(n) agrees with trial division
primality for every n below the limit except n = 2: even numbers, among
them the prime 2, always get the answer false.  In particular at limit 10
the numbers reported prime by isPrime are exactly 3, 5 and 7. -/
theorem C3_isPrime_trial_division :
    (∀ limit t n, 0 < t → n < limit → n ≠ 2 →
      (prime_sieve.init limit t).runSieve.isPrime n = isPrimeTD n) ∧
    ((List.range 10).filter (fun n => (prime_sieve.init 10 1).runSieve.isPrime n) =
      [3, 5, 7]) := by
  constructor
  · intro limit t n ht hn hn2
    rcases Nat.even_or_odd n with he | ho
    · obtain ⟨x, hx⟩ := he
      have hmod : n % 2 = 0 := by omega
      have h1 : (prime_sieve.init limit t).runSieve.isPrime n = false := by
        unfold prime_sieve.isPrime
        rw [if_neg (by omega)]
      rw [h1]
      unfold isPrimeTD
      split
      · rfl
      · symm
        simp only [beq_eq_false_iff_ne, ne_eq]
        exact hn2
    · have hmod : n % 2 = 1 := by
        obtain ⟨x, hx⟩ := ho
        omega
      have hn1 : 2 * (n / 2) + 1 = n := by omega
      have h1 : (prime_sieve.init limit t).runSieve.isPrime n =
          (prime_sieve.init limit t).runSieve.Bits.getD (n / 2) false := by
        unfold prime_sieve.isPrime
        rw [if_pos hmod]
      have hiff := post_run_getD limit t ht (n / 2) (by omega)
      rw [hn1] at hiff
      rw [h1]
      cases hv : (prime_sieve.init limit t).runSieve.Bits.getD (n / 2) false with
      | true =>
        rw [hv] at hiff
        exact ((isPrimeTD_iff n).mpr (hiff.mp rfl)).symm
      | false =>
        rw [hv] at hiff
        cases htd : isPrimeTD n with
        | false => rfl
        | true =>
          have := hiff.mpr ((isPrimeTD_iff n).mp htd)
          cases this
  · decide

theorem C3_witness :
    0 < 1 ∧ 7 < 10 ∧ 7 ≠ 2 ∧ (prime_sieve.init 10 1).runSieve.isPrime 7 = isPrimeTD 7 :=
  ⟨by decide, by decide, by decide,
    C3_isPrime_trial_division.1 10 1 7 (by decide) (by decide) (by decide)⟩

/-- Claim C4.  For every sieve value and every n below its Size, isPrime
returns the cell at index (n - 1) / 2 when n is odd (the code computes
n >> 1, which is the same number for odd n), and returns false
unconditionally when n is even, including at n = 2. -/
theorem C4_isPrime_cell_access :
    ∀ (s : prime_sieve) (n : Nat), n < s.Size →
    (n % 2 = 1 → s.isPrime n = s.Bits.getD ((n - 1) / 2) false) ∧
    (n % 2 = 0 → s.isPrime n = false) := by
  intro s n _
  constructor
  · intro hodd
    unfold prime_sieve.isPrime
    rw [if_pos hodd, show n / 2 = (n - 1) / 2 from by omega]
  · intro heven
    unfold prime_sieve.isPrime
    rw [if_neg (by omega)]

theorem C4_witness :
    (5 < (prime_sieve.init 10 1).Size ∧
      (prime_sieve.init 10 1).isPrime 5 = (prime_sieve.init 10 1).Bits.getD ((5 - 1) / 2) false) ∧
    (2 < (prime_sieve.init 10 1).Size ∧ (prime_sieve.init 10 1).isPrime 2 = false) :=
  ⟨⟨by decide, (C4_isPrime_cell_access (prime_sieve.init 10 1) 5 (by decide)).1 (by decide)⟩,
    ⟨by decide, (C4_isPrime_cell_access (prime_sieve.init 10 1) 2 (by decide)).2 (by decide)⟩⟩

/-- Claim C5, counterexample.  The claim states that construction allocates
ceil(limit / 2) cells; at limit 3 the constructor allocates 3 >> 1 = 1 cell
while ceil(3 / 2) = 2. -/
theorem C5_counterexample : ¬ ((prime_sieve.init 3 1).Bits.length = (3 + 1) / 2) := by decide

/-- Claim C5, amended.  For every limit and worker count, construction
allocates a bit store of exactly floor(limit / 2) cells, and a cell holds
true exactly when its index is nonzero: every cell is true except cell 0,
which is false.  Construction does not fail only on allocation failure:
for limit at least 2 the guarded constructor succeeds and yields exactly
this store, but for limit below 2 the allocation succeeds with an empty
store and the unchecked write of cell 0 is out of bounds, so construction
fails without any allocation failure. -/
theorem C5_construction_store :
    (∀ (n t : Nat),
      (prime_sieve.init n t).Bits.length = n / 2 ∧
      ∀ i, i < n / 2 → ((prime_sieve.init n t).Bits.getD i false = true ↔ 1 ≤ i)) ∧
    (∀ (n t : Nat), 2 ≤ n → prime_sieve.init? n t = some (prime_sieve.init n t)) ∧
    (∀ (n t : Nat), n < 2 → prime_sieve.init? n t = none) := by
  refine ⟨?_, ?_, ?_⟩
  · intro n t
    refine ⟨init_length n t, ?_⟩
    intro i hi
    rw [init_getD]
    constructor
    · intro h
      by_contra h2
      rw [if_neg (by omega)] at h
      cases h
    · intro h
      rw [if_pos ⟨h, hi⟩]
  · intro n t hn
    unfold prime_sieve.init?
    rw [if_pos (by rw [List.length_replicate]; omega)]
    rfl
  · intro n t hn
    unfold prime_sieve.init?
    rw [if_neg (by rw [List.length_replicate]; omega)]

theorem C5_witness :
    ((prime_sieve.init 10 1).Bits.length = 10 / 2 ∧
      ((prime_sieve.init 10 1).Bits.getD 1 false = true ↔ 1 ≤ 1)) ∧
    prime_sieve.init? 10 1 = some (prime_sieve.init 10 1) ∧
    prime_sieve.init? 1 1 = none :=
  ⟨⟨(C5_construction_store.1 10 1).1, (C5_construction_store.1 10 1).2 1 (by decide)⟩,
    C5_construction_store.2.1 10 1 (by decide),
    C5_construction_store.2.2 1 1 (by decide)⟩

/-- Claim C6, counterexample.  The claim states that at limit 3 the sieve
reports the two primes 2 and 3; the store only has floor(3 / 2) = 1 cell,
the number 3 is outside the exclusive bound, and countPrimes returns 1. -/
theorem C6_counterexample : ¬ (((prime_sieve.init 3 1).runSieve).countPrimes = 2) := by decide

/-- Claim C6, amended.  At limit 1 the program does not reliably report a
count at all: the constructor writes cell 0 of an empty store, an
out-of-bounds write, so construction already fails and countPrimes is
never reached.  After run(), the sieve reports exactly one prime (the
number 2, counted by the Size test in countPrimes) for limit 2, and also
exactly one prime (again the number 2; 3 is not below the exclusive
limit and has no cell) for limit 3. -/
theorem C6_boundary_counts :
    (∀ t, prime_sieve.init? 1 t = none) ∧
    (∀ t, 0 < t →
      ((prime_sieve.init 2 t).runSieve).countPrimes = 1 ∧
      ((prime_sieve.init 3 t).runSieve).countPrimes = 1) := by
  constructor
  · intro t
    rfl
  · intro t ht
    constructor
    · rw [countPrimes_run 2 t ht, card_oddPrimesBelow_2]
      decide
    · rw [countPrimes_run 3 t ht, card_oddPrimesBelow_3]
      decide

theorem C6_witness :
    prime_sieve.init? 1 2 = none ∧
    (((prime_sieve.init 2 2).runSieve).countPrimes = 1 ∧
      ((prime_sieve.init 3 2).runSieve).countPrimes = 1) :=
  ⟨C6_boundary_counts.1 2, C6_boundary_counts.2 2 (by decide)⟩

/-- Claim C7.  validateResults returns false whenever Size is not a key of
the fixed known-counts dictionary (for example limit 11), and otherwise
returns true exactly when the observed countPrimes equals the stored count;
in particular it returns true at limit 1000, where countPrimes is 168. -/
theorem C7_validate_results :
    (∀ s : prime_sieve, resultsDictionary.lookup s.Size = none → s.validateResults = false) ∧
    (∀ (s : prime_sieve) (c : Nat), resultsDictionary.lookup s.Size = some c →
      (s.validateResults = true ↔ s.countPrimes = c)) ∧
    ((prime_sieve.init 11 1).runSieve.validateResults = false) ∧
    (∀ t, 0 < t → (prime_sieve.init 1000 t).runSieve.countPrimes = 168 ∧
      (prime_sieve.init 1000 t).runSieve.validateResults = true) := by
  refine ⟨validateResults_none, ?_, by decide, ?_⟩
  · intro s c h
    rw [validateResults_some s c h, beq_iff_eq]
    exact eq_comm
  · intro t ht
    have hc : (prime_sieve.init 1000 t).runSieve.countPrimes = 168 := by
      rw [countPrimes_run 1000 t ht, card_oddPrimesBelow_1000]
      decide
    refine ⟨hc, ?_⟩
    have hl : resultsDictionary.lookup (prime_sieve.init 1000 t).runSieve.Size =
        some 168 := rfl
    rw [validateResults_some _ 168 hl, hc]
    rfl

theorem C7_witness :
    (prime_sieve.init 11 1).runSieve.validateResults = false ∧
    ((prime_sieve.init 1000 2).runSieve.countPrimes = 168 ∧
      (prime_sieve.init 1000 2).runSieve.validateResults = true) :=
  ⟨C7_validate_results.1 ((prime_sieve.init 11 1).runSieve) rfl,
    C7_validate_results.2.2.2 2 (by decide)⟩

/-- Claim C8.  Every write a sieve runner performs sets a cell to false and
nothing ever sets a cell back to true: a cell that is true after a runner
ran was already true before (monotonicity), the same holds for the full
multi-worker run, marking the same cell twice leaves it false, and a false
cell stays false under any further runner activity. -/
theorem C8_monotone_marking :
    (∀ (size T fuel i : Nat) (bits : List Bool) (j : Nat),
      (runLoop size T fuel i bits).getD j false = true → bits.getD j false = true) ∧
    (∀ (s : prime_sieve) (j : Nat),
      (s.runSieve).Bits.getD j false = true → s.Bits.getD j false = true) ∧
    (∀ (bits : List Bool) (i : Nat), i < bits.length →
      ((bits.set i false).set i false).getD i false = false) ∧
    (∀ (size T fuel i : Nat) (bits : List Bool) (j : Nat),
      bits.getD j false = false → (runLoop size T fuel i bits).getD j false = false) := by
  refine ⟨runLoop_mono, ?_, ?_, runLoop_false⟩
  · intro s j h
    have he : s.runSieve.Bits = runWorkersFrom s.Size s.Threads s.Threads 0 s.Bits := rfl
    rw [he] at h
    exact runWorkersFrom_mono s.Size s.Threads s.Threads 0 s.Bits j h
  · intro bits i hi
    rw [getD_set, if_pos ⟨rfl, by rwa [List.length_set]⟩]

theorem C8_witness :
    ([false, true, true, true, true].getD 2 false = true) ∧
    ((([true, true].set 1 false).set 1 false).getD 1 false = false) :=
  ⟨C8_monotone_marking.1 10 1 5 1 [false, true, true, true, true] 2 (by decide),
    C8_monotone_marking.2.2.1 [true, true] 1 (by decide)⟩

/-- Claim C9, counterexample.  The claim states that worker 0 marks the
multiples of 3 on each round of its loop; in the code the marking happens
only while the index equals 0, so the round at index 1 (the second round of
worker 0 when the thread count is 1) leaves the cell of the number 9
untouched. -/
theorem C9_counterexample :
    ¬ ((sieveRound 100 1 (prime_sieve.init 100 1).Bits).getD (9 / 2) false = false) := by
  decide

/-- Claim C9, amended.  Worker 0 marks the multiples of 3 only on its first
round: the loop at index 0 runs the multiple-of-3 pass (marking 9, 15, 21,
and so on, in steps of 6) and continues at index equal to the thread count;
that first round marks every number congruent to 3 mod 6 from 9 up to the
size; every round at a nonzero index is the ordinary pair of factor passes
for 6k minus 1 and 6k plus 1; and the loop stops as soon as the factor
6k minus 1 exceeds the integer square root of the size. -/
theorem C9_worker_zero_rounds :
    (∀ (size T fuel : Nat) (bits : List Bool),
      runLoop size T (fuel + 1) 0 bits =
        runLoop size T fuel T (markLoop size 6 size 9 bits)) ∧
    (∀ (size : Nat) (bits : List Bool) (c : Nat), bits.length = size / 2 →
      c < size → c % 6 = 3 → 9 ≤ c →
      (sieveRound size 0 bits).getD (c / 2) false = false) ∧
    (∀ (size i : Nat) (bits : List Bool),
      sieveRound size (i + 1) bits =
        doFactor size (6 * (i + 1) + 1) (doFactor size (6 * (i + 1) - 1) bits)) ∧
    (∀ (size T fuel i : Nat) (bits : List Bool), ¬ (6 * i - 1 ≤ isqrt size) →
      runLoop size T (fuel + 1) i bits = bits) := by
  refine ⟨?_, ?_, ?_, ?_⟩
  · intro size T fuel bits
    simp only [runLoop]
    rw [if_pos (by omega), Nat.zero_add]
    rfl
  · intro size bits c hlen hc hmod h9
    show (markLoop size 6 size 9 bits).getD (c / 2) false = false
    have := markLoop_hit size 6 (by omega) size 9 ((c - 9) / 6) bits
      (by omega) (by omega) (by rw [hlen]; omega)
    rw [show 9 + 6 * ((c - 9) / 6) = c from by omega] at this
    exact this
  · intro size i bits
    rfl
  · intro size T fuel i bits h
    simp only [runLoop]
    rw [if_neg h]

theorem C9_witness :
    (runLoop 100 2 3 0 (prime_sieve.init 100 2).Bits =
      runLoop 100 2 2 2 (markLoop 100 6 100 9 (prime_sieve.init 100 2).Bits)) ∧
    ((sieveRound 100 0 (prime_sieve.init 100 2).Bits).getD (15 / 2) false = false) ∧
    (runLoop 100 2 1 10 (prime_sieve.init 100 2).Bits = (prime_sieve.init 100 2).Bits) :=
  ⟨C9_worker_zero_rounds.1 100 2 2 (prime_sieve.init 100 2).Bits,
    C9_worker_zero_rounds.2.1 100 (prime_sieve.init 100 2).Bits 15
      (by decide) (by decide) (by decide) (by decide),
    C9_worker_zero_rounds.2.2.2 100 2 0 10 (prime_sieve.init 100 2).Bits (by decide)⟩

/-- Claim C10.  isPrime reads the cell array without a bounds check; for
every sieve constructed with limit at least 2 the access index of an odd
n below the limit is in bounds (for odd n the index is (n - 1) / 2, below
floor(limit / 2), the length of the store), while for an odd n at or above
the limit the index is out of bounds, so n below limit is an unstated
safety precondition of isPrime. -/
theorem C10_isPrime_bounds :
    ∀ (limit t n : Nat), 2 ≤ limit →
    ((n < limit ∧ n % 2 = 1) →
      (n - 1) / 2 < limit / 2 ∧ n / 2 < (prime_sieve.init limit t).Bits.length) ∧
    ((limit ≤ n ∧ n % 2 = 1) → ¬ (n / 2 < (prime_sieve.init limit t).Bits.length)) := by
  intro limit t n hl
  rw [init_length]
  exact ⟨fun h => ⟨by omega, by omega⟩, fun h => by omega⟩

theorem C10_witness :
    ((7 - 1) / 2 < 10 / 2 ∧ 7 / 2 < (prime_sieve.init 10 1).Bits.length) ∧
    ¬ (11 / 2 < (prime_sieve.init 10 1).Bits.length) :=
  ⟨(C10_isPrime_bounds 10 1 7 (by decide)).1 ⟨by decide, by decide⟩,
    (C10_isPrime_bounds 10 1 11 (by decide)).2 ⟨by decide, by decide⟩⟩
